import Mathlib

/-!
# hermes: the price-level container `RBTreeContainer` and its crossing loop

A shallow embedding of `src/orderbook/Container.hxx` and `src/orderbook/Order.hxx`.

* `price_t`, `quantity_t`, `id_t`, `exch_id_t` (declared in `Types.hxx`) are unsigned
  scalars; they are embedded as `Nat`.  The only subtractions the container performs on
  quantities are `a - min a b` and `a - b` under the guard `b < a`.
* `std::list<Order>` is a chain of nodes.  An iterator is a handle on one node, so a node
  carries an address (`Node.addr`) and the identifier index `orderMap_` stores addresses.
* `std::map<price_t, std::list<Order>, Compare>` is the list of its entries in iteration
  order, `std::unordered_map<id_t, iterator>` an association list.
* Dereferencing `end()` or a handle on a node that no longer exists has no defined result:
  those paths return `none`.
* `size_` is a `size_t`: `size_--` wraps at `0`; `size_++` is not wrapped, the number of live
  list nodes being bounded by the address space.
* `remove` erases through a by-value copy of the level's list (`auto level = ...`), with the
  iterator of the node of the live list.  The language leaves such a call undefined; the
  embedding follows what the list implementations do with it (see `RBTreeContainer.remove`).
-/

namespace hermes

/-- The order value of `Order.hxx`: accessors are the fields, `setQuantity` the only mutator. -/
structure Order where
  id : Nat
  price : Nat
  quantity : Nat
  isBuy : Bool
  exchangeId : Nat
  orderType : Nat
deriving DecidableEq, Repr

/-- `void setQuantity(quantity_t newQuantity) { quantity_ = newQuantity; }` -/
def Order.setQuantity (o : Order) (newQuantity : Nat) : Order :=
  { o with quantity := newQuantity }

/-- The record built by `trades.emplace_back(oppSideOrder.id(), currOrder.id(),
quantityFulfilled, currPrice)`. -/
structure Trade where
  aggressorId : Nat
  restingId : Nat
  quantity : Nat
  price : Nat
deriving DecidableEq, Repr

/-- The two admitted comparators: `std::less<price_t>` and `std::greater<price_t>`. -/
inductive Compare where
  | less
  | greater
deriving DecidableEq, Repr

/-- The call `cmp_fn_(a, b)`. -/
def Compare.fn : Compare → Nat → Nat → Bool
  | .less, a, b => decide (a < b)
  | .greater, a, b => decide (b < a)

/-- Key equivalence of `std::map`: neither key orders before the other. -/
def Compare.equiv (c : Compare) (a b : Nat) : Bool :=
  !c.fn a b && !c.fn b a

/-- One node of a `std::list<Order>`: its address (what an iterator holds) and its order. -/
structure Node where
  addr : Nat
  order : Order
deriving DecidableEq, Repr

/-- The members of `RBTreeContainer`; `fresh_` is the address the next allocated list node
receives (addresses of live nodes are pairwise distinct). -/
structure RBTreeContainer where
  priceLevels_ : List (Nat × List Node)
  orderMap_ : List (Nat × Nat)
  size_ : Nat
  cmp_fn_ : Compare
  fresh_ : Nat
deriving DecidableEq, Repr

/-- The constructor `RBTreeContainer() : priceLevels_{}, orderMap_{}, size_{}, cmp_fn_{} {}`. -/
def RBTreeContainer.empty (c : Compare) : RBTreeContainer :=
  { priceLevels_ := [], orderMap_ := [], size_ := 0, cmp_fn_ := c, fresh_ := 0 }

/-- All list nodes of all price levels, in level order then queue order. -/
def allNodes (levels : List (Nat × List Node)) : List Node :=
  (levels.map Prod.snd).flatten

/-- Dereferencing a list iterator: the order held by the node at address `h`, if it exists. -/
def deref (levels : List (Nat × List Node)) (h : Nat) : Option Order :=
  ((allNodes levels).find? (fun n => n.addr == h)).map Node.order

/-- The lookup `orderMap_.find(id)`: the stored iterator, `none` for `end()`. -/
def mapFind (m : List (Nat × Nat)) (id : Nat) : Option Nat :=
  (m.find? (fun e => e.1 == id)).map Prod.snd

/-- The assignment `orderMap_[id] = h` (get or create, then assign). -/
def mapAssign (id h : Nat) : List (Nat × Nat) → List (Nat × Nat)
  | [] => [(id, h)]
  | (k, v) :: rest => if k = id then (k, h) :: rest else (k, v) :: mapAssign id h rest

/-- The call `orderMap_.erase(id)`. -/
def mapErase (id : Nat) (m : List (Nat × Nat)) : List (Nat × Nat) :=
  m.filter (fun e => e.1 != id)

/-- The lookup `priceLevels_.find(price)`: the queue of the first equivalent key. -/
def findLevel (c : Compare) (p : Nat) : List (Nat × List Node) → Option (List Node)
  | [] => none
  | (k, q) :: rest => if c.equiv k p then some q else findLevel c p rest

/-- The call `priceLevels_.erase(levelItr)` for the entry `priceLevels_.find(p)` found. -/
def eraseLevel (c : Compare) (p : Nat) : List (Nat × List Node) → List (Nat × List Node)
  | [] => []
  | (k, q) :: rest => if c.equiv k p then rest else (k, q) :: eraseLevel c p rest

/-- The statements `auto &level = priceLevels_[price]; level.push_back(order);`: walk to the
first key that does not order before `price`, create the level there unless the key is
equivalent, and append the node at the back of the queue. -/
def pushBackAt (c : Compare) (p : Nat) (n : Node) :
    List (Nat × List Node) → List (Nat × List Node)
  | [] => [(p, [n])]
  | (k, q) :: rest =>
    if c.fn k p then (k, q) :: pushBackAt c p n rest
    else if c.fn p k then (p, [n]) :: (k, q) :: rest
    else (k, q ++ [n]) :: rest

/-- What `erase(orderItr)` does to the chain the node is linked in: the node at address `h`
is unhooked from its neighbours. -/
def unhook (h : Nat) (levels : List (Nat × List Node)) : List (Nat × List Node) :=
  levels.map (fun l => (l.1, l.2.filter (fun n => n.addr != h)))

/-- The call `itr->setQuantity(q)` through a list iterator holding address `h`. -/
def setQuantityAt (h q : Nat) (levels : List (Nat × List Node)) : List (Nat × List Node) :=
  levels.map (fun l =>
    (l.1, l.2.map (fun n => if n.addr = h then { n with order := n.order.setQuantity q } else n)))

/-- `size_t size() const { return size_; }` -/
def RBTreeContainer.size (b : RBTreeContainer) : Nat := b.size_

/-- `bool contains(id_t id) const { return orderMap_.contains(id); }` -/
def RBTreeContainer.contains (b : RBTreeContainer) (id : Nat) : Bool :=
  (mapFind b.orderMap_ id).isSome

/-- `itr_t find(id_t id) const { return orderMap_.find(id)->second; }` followed by the
dereference of the returned iterator. -/
def RBTreeContainer.find (b : RBTreeContainer) (id : Nat) : Option Order :=
  match mapFind b.orderMap_ id with
  | none => none
  | some h => deref b.priceLevels_ h

/-- `price_t bestPrice() const { return priceLevels_.begin()->first; }` -/
def RBTreeContainer.bestPrice (b : RBTreeContainer) : Option Nat :=
  b.priceLevels_.head?.map Prod.fst

/-- `void insert(const Order &order)` (the rvalue overload performs the same steps):
get or create the level, `push_back`, `orderMap_[order.id()] = --level.end()`, `size_++`. -/
def RBTreeContainer.insert (b : RBTreeContainer) (order : Order) : RBTreeContainer :=
  { priceLevels_ := pushBackAt b.cmp_fn_ order.price ⟨b.fresh_, order⟩ b.priceLevels_
    orderMap_ := mapAssign order.id b.fresh_ b.orderMap_
    size_ := b.size_ + 1
    cmp_fn_ := b.cmp_fn_
    fresh_ := b.fresh_ + 1 }

/-- `void remove(id_t id)`.

`auto level = levelItr->second;` copies the queue (not `auto &level`, as `insert` has it);
`level.erase(orderItr)` is then called on the copy with the iterator of the node in the live
queue, which the language leaves undefined.  What `std::list::erase` does in the library
implementations is to unhook the node its argument designates from its neighbours, free it,
and decrement the element count of the list it is called on.  So the live queue loses the
node, while the count tested by `level.size() == 0` is that of the copy: the copy was built
with as many elements as the live queue has nodes, minus the one erased, which is `0` exactly
when the live queue had one node.  `size_--` wraps at `0` (`size_t`). -/
def RBTreeContainer.remove (b : RBTreeContainer) (id : Nat) : Option RBTreeContainer :=
  match mapFind b.orderMap_ id with
  | none => none
  | some orderItr =>
    match deref b.priceLevels_ orderItr with
    | none => none
    | some order =>
      match findLevel b.cmp_fn_ order.price b.priceLevels_ with
      | none => none
      | some level =>
        let unhooked := unhook orderItr b.priceLevels_
        some
          { priceLevels_ :=
              if level.length = 1 then eraseLevel b.cmp_fn_ order.price unhooked else unhooked
            orderMap_ := mapErase id b.orderMap_
            size_ := if b.size_ = 0 then 2 ^ 64 - 1 else b.size_ - 1
            cmp_fn_ := b.cmp_fn_
            fresh_ := b.fresh_ }

/-- `void modify(const Order &newOrder)` (the rvalue overload performs the same steps). -/
def RBTreeContainer.modify (b : RBTreeContainer) (newOrder : Order) : Option RBTreeContainer :=
  if newOrder.quantity = 0 then b.remove newOrder.id
  else
    match mapFind b.orderMap_ newOrder.id with
    | none => none
    | some mapItr =>
      match deref b.priceLevels_ mapItr with
      | none => none
      | some currOrder =>
        if currOrder.price = newOrder.price then
          some { b with priceLevels_ := setQuantityAt mapItr newOrder.quantity b.priceLevels_ }
        else
          match b.remove newOrder.id with
          | none => none
          | some b1 => some (b1.insert newOrder)

/-- The state of a running `cross` call: the book, the incoming order (mutated in place by
`setQuantity`) and the trades emitted so far. -/
structure CrossState where
  book : RBTreeContainer
  oppSideOrder : Order
  trades : List Trade
deriving DecidableEq, Repr

/-- The inner loop of `cross`, over `levelList`, the by-value copy of the level made by
`auto [currPrice, levelList] = *priceLevelItr;`.  `currOrder` is the element of the copy;
removal and the quantity update go to the live book through `orderMap_`. -/
def crossLevel (currPrice : Nat) : List Order → CrossState → Option CrossState
  | [], s => some s
  | currOrder :: levelList, s =>
    if 0 < s.oppSideOrder.quantity then
      let quantityFulfilled := min s.oppSideOrder.quantity currOrder.quantity
      let trades := s.trades ++ [⟨s.oppSideOrder.id, currOrder.id, quantityFulfilled, currPrice⟩]
      let opp := s.oppSideOrder.setQuantity (s.oppSideOrder.quantity - quantityFulfilled)
      if currOrder.quantity ≤ quantityFulfilled then
        match s.book.remove currOrder.id with
        | none => none
        | some b1 => crossLevel currPrice levelList ⟨b1, opp, trades⟩
      else
        match mapFind s.book.orderMap_ currOrder.id with
        | none => none
        | some h =>
          match deref s.book.priceLevels_ h with
          | none => none
          | some _ =>
            crossLevel currPrice levelList
              ⟨{ s.book with
                  priceLevels_ :=
                    setQuantityAt h (currOrder.quantity - quantityFulfilled) s.book.priceLevels_ },
                opp, trades⟩
    else some s

/-- The outer loop of `cross`: each pass re-reads `priceLevels_.begin()` and tests
`priceLevelItr != end() and (first == price or cmp_fn_(first, price)) and quantity > 0`.
A pass costs one unit of `fuel`; `none` when the fuel does not suffice. -/
def crossLoop : Nat → CrossState → Option CrossState
  | 0, _ => none
  | fuel + 1, s =>
    match s.book.priceLevels_ with
    | [] => some s
    | (currPrice, levelList) :: _ =>
      if (currPrice = s.oppSideOrder.price ∨ s.book.cmp_fn_.fn currPrice s.oppSideOrder.price)
          ∧ 0 < s.oppSideOrder.quantity then
        match crossLevel currPrice (levelList.map Node.order) s with
        | none => none
        | some s1 => crossLoop fuel s1
      else some s

/-- `std::vector<Trade> cross(Order &oppSideOrder)`.  Every pass of the outer loop but the
last erases an entry of `orderMap_`, so `orderMap_.size() + 2` passes suffice whenever the
loop ends. -/
def RBTreeContainer.cross (b : RBTreeContainer) (oppSideOrder : Order) : Option CrossState :=
  crossLoop (b.orderMap_.length + 2) ⟨b, oppSideOrder, []⟩

/-- A price level is marketable against an incoming order: its price equals the incoming
price or orders before it under the comparator (the loop condition of `cross`). -/
def marketable (c : Compare) (incoming : Order) (levelPrice : Nat) : Bool :=
  decide (levelPrice = incoming.price) || c.fn levelPrice incoming.price

/-- The levels once the order with identifier `id` has left its queue: every queue keeps
its other nodes in their order, and a level whose queue has become empty leaves the map. -/
def dropId (id : Nat) (levels : List (Nat × List Node)) : List (Nat × List Node) :=
  (levels.map (fun l => (l.1, l.2.filter (fun m => m.order.id != id)))).filter
    (fun l => !l.2.isEmpty)

/-- Matching `qty` incoming units against one FIFO queue at price `p`, front order first
(spec 4.1): the fill is `min qty resting`; an order whose remainder is `0` leaves the queue,
otherwise its quantity is reduced in place.  Result: the queue left, the incoming quantity
left, the trades in execution order. -/
def matchQueue (aggressor p : Nat) : Nat → List Node → List Node × Nat × List Trade
  | qty, [] => ([], qty, [])
  | qty, n :: q =>
    if 0 < qty then
      let filled := min qty n.order.quantity
      if n.order.quantity - filled = 0 then
        let r := matchQueue aggressor p (qty - filled) q
        (r.1, r.2.1, ⟨aggressor, n.order.id, filled, p⟩ :: r.2.2)
      else
        ({ n with order := n.order.setQuantity (n.order.quantity - filled) } :: q,
          qty - filled, [⟨aggressor, n.order.id, filled, p⟩])
    else (n :: q, qty, [])

/-- Matching `qty` incoming units of `incoming` against the levels, best level first (spec
4.1): while the best level is marketable and quantity is left, its queue is matched; a level
whose queue is used up leaves the map.  Result: the levels left, the incoming quantity left,
the trades in execution order. -/
def matchLevels (c : Compare) (incoming : Order) :
    Nat → List (Nat × List Node) → List (Nat × List Node) × Nat × List Trade
  | qty, [] => ([], qty, [])
  | qty, (p, q) :: rest =>
    if marketable c incoming p = true ∧ 0 < qty then
      let r := matchQueue incoming.id p qty q
      if r.1 = [] then
        let r2 := matchLevels c incoming r.2.1 rest
        (r2.1, r2.2.1, r.2.2 ++ r2.2.2)
      else ((p, r.1) :: rest, r.2.1, r.2.2)
    else ((p, q) :: rest, qty, [])

/-- Scenario 1 of spec section 8: sell 10@100, sell 5@100, sell 8@101 on the ascending
(sell-side) book. -/
def sell10 : Order := ⟨1, 100, 10, false, 0, 0⟩

/-- The second order of scenario 1. -/
def sell5 : Order := ⟨2, 100, 5, false, 0, 0⟩

/-- The third order of scenario 1. -/
def sell8 : Order := ⟨3, 101, 8, false, 0, 0⟩

/-- The sell-side book of scenario 1. -/
def askBook : RBTreeContainer :=
  (((RBTreeContainer.empty Compare.less).insert sell10).insert sell5).insert sell8

/-- The incoming order of scenario 2: buy 12@101. -/
def buy12 : Order := ⟨9, 101, 12, true, 0, 0⟩

/-- The entries `orderMap_` must hold for the nodes of the levels: one per node. -/
def indexOf (levels : List (Nat × List Node)) : List (Nat × Nat) :=
  (allNodes levels).map (fun n => (n.order.id, n.addr))

/-- Consistency of a book (spec section 3): level keys strictly ordered by the comparator, no
empty level, every order filed under its own price, node addresses and resting ids pairwise
distinct, the identifier index holding exactly one entry per node, `size_` the node count. -/
def WF (b : RBTreeContainer) : Prop :=
  (b.priceLevels_.map Prod.fst).Pairwise (fun a c => b.cmp_fn_.fn a c = true)
  ∧ (∀ l ∈ b.priceLevels_, l.2 ≠ [])
  ∧ (∀ l ∈ b.priceLevels_, ∀ n ∈ l.2, n.order.price = l.1)
  ∧ ((allNodes b.priceLevels_).map Node.addr).Nodup
  ∧ ((allNodes b.priceLevels_).map (fun n => n.order.id)).Nodup
  ∧ (b.orderMap_.map Prod.fst).Nodup
  ∧ (∀ e, e ∈ b.orderMap_ ↔ e ∈ indexOf b.priceLevels_)
  ∧ b.size_ = (allNodes b.priceLevels_).length
  ∧ (∀ n ∈ allNodes b.priceLevels_, n.addr < b.fresh_)

/-- The states reached from the empty book by `insert` of an order whose id is not resting,
`remove` and `modify` of a resting id, and `cross` with any incoming order. -/
inductive Reachable (c : Compare) : RBTreeContainer → Prop
  | empty : Reachable c (RBTreeContainer.empty c)
  | insert {b : RBTreeContainer} {o : Order} :
      Reachable c b → b.contains o.id = false → Reachable c (b.insert o)
  | remove {b b1 : RBTreeContainer} {id : Nat} :
      Reachable c b → b.contains id = true → b.remove id = some b1 → Reachable c b1
  | modify {b b1 : RBTreeContainer} {o : Order} :
      Reachable c b → b.contains o.id = true → b.modify o = some b1 → Reachable c b1
  | cross {b : RBTreeContainer} {o : Order} {s : CrossState} :
      Reachable c b → b.cross o = some s → Reachable c s.book

/-- The shape of the ordered map of levels, whatever the identifier index holds: keys
strictly ordered, no empty queue, every order filed under its own price, node addresses
pairwise distinct and below the next address to allocate. -/
def Shape (b : RBTreeContainer) : Prop :=
  (b.priceLevels_.map Prod.fst).Pairwise (fun a c => b.cmp_fn_.fn a c = true)
  ∧ (∀ l ∈ b.priceLevels_, l.2 ≠ [])
  ∧ (∀ l ∈ b.priceLevels_, ∀ n ∈ l.2, n.order.price = l.1)
  ∧ ((allNodes b.priceLevels_).map Node.addr).Nodup
  ∧ (∀ n ∈ allNodes b.priceLevels_, n.addr < b.fresh_)

instance (b : RBTreeContainer) : Decidable (WF b) := by
  unfold WF
  have : Decidable (∀ e, e ∈ b.orderMap_ ↔ e ∈ indexOf b.priceLevels_) :=
    decidable_of_iff ((∀ e ∈ b.orderMap_, e ∈ indexOf b.priceLevels_)
        ∧ (∀ e ∈ indexOf b.priceLevels_, e ∈ b.orderMap_))
      ⟨fun h e => ⟨h.1 e, h.2 e⟩, fun h => ⟨fun e => (h e).1, fun e => (h e).2⟩⟩
  infer_instance

/-! ## Lists of levels -/

@[simp] theorem allNodes_nil : allNodes [] = [] := rfl

@[simp] theorem allNodes_cons (l : Nat × List Node) (rest : List (Nat × List Node)) :
    allNodes (l :: rest) = l.2 ++ allNodes rest := by
  simp [allNodes]

@[simp] theorem allNodes_append (xs ys : List (Nat × List Node)) :
    allNodes (xs ++ ys) = allNodes xs ++ allNodes ys := by
  simp [allNodes]

theorem mem_allNodes {n : Node} {levels : List (Nat × List Node)} :
    n ∈ allNodes levels ↔ ∃ l ∈ levels, n ∈ l.2 := by
  simp only [allNodes, List.mem_flatten, List.mem_map]
  constructor
  · rintro ⟨q, ⟨l, hl, rfl⟩, hn⟩
    exact ⟨l, hl, hn⟩
  · rintro ⟨l, hl, hn⟩
    exact ⟨l.2, ⟨l, hl, rfl⟩, hn⟩

theorem levels_split {n : Node} {levels : List (Nat × List Node)} (h : n ∈ allNodes levels) :
    ∃ pre p q1 q2 post, levels = pre ++ (p, q1 ++ n :: q2) :: post := by
  obtain ⟨l, hl, hn⟩ := mem_allNodes.1 h
  obtain ⟨pre, post, rfl⟩ := List.append_of_mem hl
  obtain ⟨q1, q2, hq⟩ := List.append_of_mem hn
  refine ⟨pre, l.1, q1, q2, post, ?_⟩
  rw [← hq]

theorem length_le_allNodes {levels : List (Nat × List Node)}
    (h : ∀ l ∈ levels, l.2 ≠ []) : levels.length ≤ (allNodes levels).length := by
  induction levels with
  | nil => simp
  | cons l rest ih =>
    have h1 : l.2 ≠ [] := h l (List.mem_cons_self _ _)
    have h2 := ih (fun x hx => h x (List.mem_cons_of_mem _ hx))
    have h3 : 0 < l.2.length := List.length_pos.2 h1
    simp only [allNodes_cons, List.length_cons, List.length_append]
    omega

/-! ## The comparator -/

theorem Compare.equiv_iff (c : Compare) (a b : Nat) : c.equiv a b = true ↔ a = b := by
  cases c <;> simp [Compare.equiv, Compare.fn] <;> omega

theorem Compare.fn_irrefl (c : Compare) (a : Nat) : c.fn a a = false := by
  cases c <;> simp [Compare.fn]

theorem Compare.fn_trans (c : Compare) {x y z : Nat} (h1 : c.fn x y = true)
    (h2 : c.fn y z = true) : c.fn x z = true := by
  cases c <;> simp [Compare.fn] at * <;> omega

theorem Compare.fn_asymm (c : Compare) {x y : Nat} (h1 : c.fn x y = true) :
    c.fn y x = false := by
  cases c <;> simp [Compare.fn] at * <;> omega

theorem Compare.fn_total (c : Compare) (x y : Nat) :
    c.fn x y = true ∨ x = y ∨ c.fn y x = true := by
  cases c <;> simp [Compare.fn] <;> omega

theorem keys_nodup {c : Compare} {ks : List Nat}
    (h : ks.Pairwise (fun a b => c.fn a b = true)) : ks.Nodup := by
  refine List.Pairwise.imp ?_ h
  intro a b hab heq
  subst heq
  rw [Compare.fn_irrefl] at hab
  exact Bool.noConfusion hab

/-! ## The identifier index -/

theorem mapFind_of_mem {m : List (Nat × Nat)} {id h : Nat}
    (hnd : (m.map Prod.fst).Nodup) (hm : (id, h) ∈ m) : mapFind m id = some h := by
  induction m with
  | nil => simp at hm
  | cons e rest ih =>
    obtain ⟨k, v⟩ := e
    simp only [List.map_cons, List.nodup_cons] at hnd
    rcases List.mem_cons.1 hm with heq | hin
    · cases heq
      simp [mapFind]
    · have hne : k ≠ id := by
        rintro rfl
        exact hnd.1 (List.mem_map.2 ⟨(k, h), hin, rfl⟩)
      have := ih hnd.2 hin
      simp only [mapFind] at this ⊢
      rw [List.find?_cons_of_neg _ (by simpa using hne)]
      exact this

theorem mapFind_some_mem {m : List (Nat × Nat)} {id h : Nat}
    (hf : mapFind m id = some h) : (id, h) ∈ m := by
  induction m with
  | nil => simp [mapFind] at hf
  | cons e rest ih =>
    obtain ⟨k, v⟩ := e
    by_cases hk : k = id
    · subst hk
      simp [mapFind] at hf
      subst hf
      exact List.mem_cons_self _ _
    · have : mapFind rest id = some h := by
        simp only [mapFind] at hf ⊢
        rw [List.find?_cons_of_neg _ (by simpa using hk)] at hf
        exact hf
      exact List.mem_cons_of_mem _ (ih this)

theorem mapFind_none_iff {m : List (Nat × Nat)} {id : Nat} :
    mapFind m id = none ↔ id ∉ m.map Prod.fst := by
  induction m with
  | nil => simp [mapFind]
  | cons e rest ih =>
    obtain ⟨k, v⟩ := e
    by_cases hk : k = id
    · subst hk
      simp [mapFind]
    · have h1 : mapFind ((k, v) :: rest) id = mapFind rest id := by
        simp only [mapFind]
        rw [List.find?_cons_of_neg _ (by simpa using hk)]
      rw [h1, ih]
      simp only [List.map_cons, List.mem_cons, not_or]
      constructor
      · intro h
        exact ⟨fun h2 => hk h2.symm, h⟩
      · intro h
        exact h.2

theorem mem_mapErase {m : List (Nat × Nat)} {id : Nat} {e : Nat × Nat} :
    e ∈ mapErase id m ↔ e ∈ m ∧ e.1 ≠ id := by
  simp [mapErase, List.mem_filter]

theorem mapAssign_fresh {m : List (Nat × Nat)} {id h : Nat}
    (hf : id ∉ m.map Prod.fst) : mapAssign id h m = m ++ [(id, h)] := by
  induction m with
  | nil => rfl
  | cons e rest ih =>
    obtain ⟨k, v⟩ := e
    simp only [List.map_cons, List.mem_cons, not_or] at hf
    have hk : ¬ k = id := fun h2 => hf.1 h2.symm
    simp only [mapAssign, hk, if_false, List.cons_append, ih hf.2]

/-! ## Iterators -/

theorem deref_of_mem {levels : List (Nat × List Node)} {n : Node}
    (hnd : ((allNodes levels).map Node.addr).Nodup) (hn : n ∈ allNodes levels) :
    deref levels n.addr = some n.order := by
  unfold deref
  generalize allNodes levels = ns at hnd hn
  induction ns with
  | nil => simp at hn
  | cons m rest ih =>
    simp only [List.map_cons, List.nodup_cons] at hnd
    rcases List.mem_cons.1 hn with heq | hin
    · subst heq
      simp
    · have hne : ¬ m.addr = n.addr := by
        intro heq
        exact hnd.1 (heq ▸ List.mem_map.2 ⟨n, hin, rfl⟩)
      rw [List.find?_cons_of_neg _ (by simpa using hne)]
      exact ih hnd.2 hin

theorem findLevel_split (c : Compare) (p : Nat) (q : List Node)
    (pre post : List (Nat × List Node)) (hp : p ∉ pre.map Prod.fst) :
    findLevel c p (pre ++ (p, q) :: post) = some q := by
  induction pre with
  | nil => simp [findLevel, (Compare.equiv_iff c p p).2 rfl]
  | cons l rest ih =>
    obtain ⟨k, x⟩ := l
    simp only [List.map_cons, List.mem_cons, not_or] at hp
    have hk : c.equiv k p = false := by
      cases h : c.equiv k p
      · rfl
      · exact absurd ((Compare.equiv_iff c k p).1 h).symm hp.1
    simp only [List.cons_append, findLevel, hk, Bool.false_eq_true, if_false]
    exact ih hp.2

theorem eraseLevel_split (c : Compare) (p : Nat) (q : List Node)
    (pre post : List (Nat × List Node)) (hp : p ∉ pre.map Prod.fst) :
    eraseLevel c p (pre ++ (p, q) :: post) = pre ++ post := by
  induction pre with
  | nil => simp [eraseLevel, (Compare.equiv_iff c p p).2 rfl]
  | cons l rest ih =>
    obtain ⟨k, x⟩ := l
    simp only [List.map_cons, List.mem_cons, not_or] at hp
    have hk : c.equiv k p = false := by
      cases h : c.equiv k p
      · rfl
      · exact absurd ((Compare.equiv_iff c k p).1 h).symm hp.1
    have hstep : eraseLevel c p ((k, x) :: (rest ++ (p, q) :: post))
        = (k, x) :: eraseLevel c p (rest ++ (p, q) :: post) := by
      simp [eraseLevel, hk]
    rw [List.cons_append, hstep, ih hp.2, List.cons_append]

theorem unhook_append (h : Nat) (xs ys : List (Nat × List Node)) :
    unhook h (xs ++ ys) = unhook h xs ++ unhook h ys := by
  simp [unhook]

theorem unhook_absent {h : Nat} {levels : List (Nat × List Node)}
    (ha : ∀ n ∈ allNodes levels, n.addr ≠ h) : unhook h levels = levels := by
  induction levels with
  | nil => rfl
  | cons l rest ih =>
    have h1 : l.2.filter (fun n => n.addr != h) = l.2 := by
      rw [List.filter_eq_self]
      intro n hn
      have := ha n (by simp [hn])
      simpa using this
    have h2 := ih (fun n hn => ha n (by simp [hn]))
    simp only [unhook, List.map_cons] at h2 ⊢
    rw [h1, h2]

/-! ## `remove` on a located node -/

theorem unhook_level {h : Nat} {p : Nat} {q1 q2 : List Node} {n : Node}
    (hn : n.addr = h) (h1 : ∀ m ∈ q1, m.addr ≠ h) (h2 : ∀ m ∈ q2, m.addr ≠ h) :
    unhook h [(p, q1 ++ n :: q2)] = [(p, q1 ++ q2)] := by
  have e1 : q1.filter (fun m => m.addr != h) = q1 := by
    rw [List.filter_eq_self]
    intro m hm
    simpa using h1 m hm
  have e2 : q2.filter (fun m => m.addr != h) = q2 := by
    rw [List.filter_eq_self]
    intro m hm
    simpa using h2 m hm
  simp [unhook, List.filter_append, List.filter_cons, e1, e2, hn]

theorem unhook_split {pre post : List (Nat × List Node)} {p : Nat} {q1 q2 : List Node}
    {n : Node}
    (hnd : ((allNodes (pre ++ (p, q1 ++ n :: q2) :: post)).map Node.addr).Nodup) :
    unhook n.addr (pre ++ (p, q1 ++ n :: q2) :: post) = pre ++ (p, q1 ++ q2) :: post := by
  have hperm : ((allNodes (pre ++ (p, q1 ++ n :: q2) :: post)).map Node.addr).Perm
      (n.addr :: (allNodes pre ++ (q1 ++ (q2 ++ allNodes post))).map Node.addr) := by
    simp only [allNodes_append, allNodes_cons, List.map_append, List.map_cons,
      List.append_assoc, List.cons_append]
    rw [← List.append_assoc]
    refine List.Perm.trans List.perm_middle ?_
    simp [List.append_assoc]
  have hnd2 := (List.Perm.nodup_iff hperm).1 hnd
  have hfresh : ∀ m ∈ allNodes pre ++ (q1 ++ (q2 ++ allNodes post)), m.addr ≠ n.addr := by
    intro m hm heq
    exact (List.nodup_cons.1 hnd2).1 (heq ▸ List.mem_map.2 ⟨m, hm, rfl⟩)
  have hpre : unhook n.addr pre = pre :=
    unhook_absent (fun m hm => hfresh m (by simp [hm]))
  have hpost : unhook n.addr post = post :=
    unhook_absent (fun m hm => hfresh m (by simp [hm]))
  have hmid : unhook n.addr [(p, q1 ++ n :: q2)] = [(p, q1 ++ q2)] :=
    unhook_level rfl (fun m hm => hfresh m (by simp [hm])) (fun m hm => hfresh m (by simp [hm]))
  have hcons : pre ++ (p, q1 ++ n :: q2) :: post = pre ++ ([(p, q1 ++ n :: q2)] ++ post) := by
    simp
  rw [hcons, unhook_append, unhook_append, hpre, hpost, hmid]
  simp

theorem remove_split {b : RBTreeContainer} {pre post : List (Nat × List Node)} {p : Nat}
    {q1 q2 : List Node} {n : Node}
    (hl : b.priceLevels_ = pre ++ (p, q1 ++ n :: q2) :: post)
    (hfind : mapFind b.orderMap_ n.order.id = some n.addr)
    (hnd : ((allNodes b.priceLevels_).map Node.addr).Nodup)
    (hprice : n.order.price = p) (hp : p ∉ pre.map Prod.fst) :
    b.remove n.order.id = some
      { priceLevels_ := pre ++ (if q1 ++ q2 = [] then post else (p, q1 ++ q2) :: post)
        orderMap_ := mapErase n.order.id b.orderMap_
        size_ := if b.size_ = 0 then 2 ^ 64 - 1 else b.size_ - 1
        cmp_fn_ := b.cmp_fn_
        fresh_ := b.fresh_ } := by
  have hmem : n ∈ allNodes b.priceLevels_ := by
    rw [hl]
    simp
  have hd := deref_of_mem hnd hmem
  have hfl : findLevel b.cmp_fn_ p b.priceLevels_ = some (q1 ++ n :: q2) := by
    rw [hl]
    exact findLevel_split _ _ _ _ _ hp
  have hun : unhook n.addr b.priceLevels_ = pre ++ (p, q1 ++ q2) :: post := by
    rw [hl]
    exact unhook_split (hl ▸ hnd)
  have hlen : (q1 ++ n :: q2).length = 1 ↔ q1 ++ q2 = [] := by
    cases q1 <;> cases q2 <;> simp
  unfold RBTreeContainer.remove
  simp only [hfind, hd, hfl, hun, hprice]
  by_cases he : q1 ++ q2 = []
  · simp only [hlen.2 he, he, if_true, eraseLevel_split _ _ _ _ _ hp]
  · have hne : ¬ (q1 ++ n :: q2).length = 1 := fun h => he (hlen.1 h)
    simp only [hne, he, if_false]

/-! ## Consequences of consistency -/

theorem WF.mapFind {b : RBTreeContainer} (hwf : WF b) {n : Node}
    (hn : n ∈ allNodes b.priceLevels_) : mapFind b.orderMap_ n.order.id = some n.addr := by
  obtain ⟨_, _, _, _, _, hk, hiff, _, _⟩ := hwf
  refine mapFind_of_mem hk ((hiff _).2 ?_)
  exact List.mem_map.2 ⟨n, hn, rfl⟩

theorem WF.contains_iff {b : RBTreeContainer} (hwf : WF b) (id : Nat) :
    b.contains id = true ↔ ∃ n ∈ allNodes b.priceLevels_, n.order.id = id := by
  constructor
  · intro h
    unfold RBTreeContainer.contains at h
    obtain ⟨a, ha⟩ := Option.isSome_iff_exists.1 h
    have hmem := mapFind_some_mem ha
    obtain ⟨n, hn, heq⟩ := List.mem_map.1 ((hwf.2.2.2.2.2.2.1 _).1 hmem)
    refine ⟨n, hn, ?_⟩
    exact congrArg Prod.fst heq
  · rintro ⟨n, hn, rfl⟩
    unfold RBTreeContainer.contains
    rw [hwf.mapFind hn]
    rfl

theorem WF.find {b : RBTreeContainer} (hwf : WF b) {n : Node}
    (hn : n ∈ allNodes b.priceLevels_) : b.find n.order.id = some n.order := by
  unfold RBTreeContainer.find
  rw [hwf.mapFind hn]
  exact deref_of_mem hwf.2.2.2.1 hn

theorem WF.split {b : RBTreeContainer} (hwf : WF b) {n : Node}
    (hn : n ∈ allNodes b.priceLevels_) :
    ∃ pre q1 q2 post, b.priceLevels_ = pre ++ (n.order.price, q1 ++ n :: q2) :: post
      ∧ n.order.price ∉ pre.map Prod.fst ∧ n.order.price ∉ post.map Prod.fst := by
  obtain ⟨pre, p, q1, q2, post, hl⟩ := levels_split hn
  have hprice : n.order.price = p :=
    hwf.2.2.1 (p, q1 ++ n :: q2) (by rw [hl]; simp) n (by simp)
  have hnd := keys_nodup hwf.1
  rw [hl] at hnd
  simp only [List.map_append, List.map_cons] at hnd
  have h1 := List.nodup_append.1 hnd
  have h2 := List.nodup_cons.1 h1.2.1
  refine ⟨pre, q1, q2, post, hprice ▸ hl, ?_, ?_⟩
  · intro hmem
    exact h1.2.2 (hprice ▸ hmem) (List.mem_cons_self _ _)
  · intro hmem
    exact h2.1 (hprice ▸ hmem)

/-! ## `dropId` -/

theorem allNodes_dropId (id : Nat) (levels : List (Nat × List Node)) :
    allNodes (dropId id levels) = (allNodes levels).filter (fun m => m.order.id != id) := by
  induction levels with
  | nil => rfl
  | cons l rest ih =>
    unfold dropId at ih ⊢
    simp only [List.map_cons, List.filter_cons, allNodes_cons, List.filter_append]
    by_cases he : l.2.filter (fun m => m.order.id != id) = []
    · simp [he, ih]
    · simp [he, ih]

theorem keys_dropId (id : Nat) (levels : List (Nat × List Node)) :
    ((dropId id levels).map Prod.fst).Sublist (levels.map Prod.fst) := by
  unfold dropId
  have h1 : ((levels.map (fun l => (l.1, l.2.filter (fun m => m.order.id != id)))).map Prod.fst)
      = levels.map Prod.fst := by
    simp [List.map_map, Function.comp_def]
  rw [← h1]
  exact (List.filter_sublist _).map _

theorem mem_dropId {id : Nat} {levels : List (Nat × List Node)} {l : Nat × List Node}
    (h : l ∈ dropId id levels) :
    l.2 ≠ [] ∧ ∃ q, (l.1, q) ∈ levels ∧ l.2 = q.filter (fun m => m.order.id != id) := by
  unfold dropId at h
  obtain ⟨h1, h2⟩ := List.mem_filter.1 h
  obtain ⟨x, hx, rfl⟩ := List.mem_map.1 h1
  refine ⟨?_, x.2, hx, rfl⟩
  intro he
  have he2 : List.filter (fun m => m.order.id != id) x.2 = [] := he
  rw [he2] at h2
  exact Bool.noConfusion h2

theorem dropId_absent {id : Nat} {levels : List (Nat × List Node)}
    (hne : ∀ l ∈ levels, l.2 ≠ []) (ha : ∀ m ∈ allNodes levels, m.order.id ≠ id) :
    dropId id levels = levels := by
  induction levels with
  | nil => rfl
  | cons l rest ih =>
    have h1 : l.2.filter (fun m => m.order.id != id) = l.2 := by
      rw [List.filter_eq_self]
      intro m hm
      simpa using ha m (by simp [hm])
    have h2 := ih (fun x hx => hne x (List.mem_cons_of_mem _ hx))
      (fun m hm => ha m (by simp [hm]))
    have h3 : l.2 ≠ [] := hne l (List.mem_cons_self _ _)
    unfold dropId at h2 ⊢
    simp only [List.map_cons, List.filter_cons, h1]
    simp [h3, h2]

theorem dropId_append (id : Nat) (xs ys : List (Nat × List Node)) :
    dropId id (xs ++ ys) = dropId id xs ++ dropId id ys := by
  simp [dropId]

theorem dropId_split {pre post : List (Nat × List Node)} {p : Nat} {q1 q2 : List Node}
    {n : Node}
    (hne : ∀ l ∈ pre ++ (p, q1 ++ n :: q2) :: post, l.2 ≠ [])
    (hnd : ((allNodes (pre ++ (p, q1 ++ n :: q2) :: post)).map (fun m => m.order.id)).Nodup) :
    dropId n.order.id (pre ++ (p, q1 ++ n :: q2) :: post)
      = pre ++ (if q1 ++ q2 = [] then post else (p, q1 ++ q2) :: post) := by
  have hperm : ((allNodes (pre ++ (p, q1 ++ n :: q2) :: post)).map (fun m => m.order.id)).Perm
      (n.order.id ::
        (allNodes pre ++ (q1 ++ (q2 ++ allNodes post))).map (fun m => m.order.id)) := by
    simp only [allNodes_append, allNodes_cons, List.map_append, List.map_cons,
      List.append_assoc, List.cons_append]
    rw [← List.append_assoc]
    refine List.Perm.trans List.perm_middle ?_
    simp [List.append_assoc]
  have hnd2 := (List.Perm.nodup_iff hperm).1 hnd
  have hfresh : ∀ m ∈ allNodes pre ++ (q1 ++ (q2 ++ allNodes post)),
      m.order.id ≠ n.order.id := by
    intro m hm heq
    exact (List.nodup_cons.1 hnd2).1 (heq ▸ List.mem_map.2 ⟨m, hm, rfl⟩)
  have hpre : dropId n.order.id pre = pre :=
    dropId_absent (fun l hl => hne l (by simp [hl])) (fun m hm => hfresh m (by simp [hm]))
  have hpost : dropId n.order.id post = post :=
    dropId_absent (fun l hl => hne l (by simp [hl])) (fun m hm => hfresh m (by simp [hm]))
  have e1 : q1.filter (fun m => m.order.id != n.order.id) = q1 := by
    rw [List.filter_eq_self]
    intro m hm
    simpa using hfresh m (by simp [hm])
  have e2 : q2.filter (fun m => m.order.id != n.order.id) = q2 := by
    rw [List.filter_eq_self]
    intro m hm
    simpa using hfresh m (by simp [hm])
  have hmid : dropId n.order.id [(p, q1 ++ n :: q2)]
      = (if q1 ++ q2 = [] then [] else [(p, q1 ++ q2)]) := by
    by_cases he : q1 ++ q2 = []
    · simp [dropId, List.filter_append, List.filter_cons, e1, e2, he]
    · simp [dropId, List.filter_append, List.filter_cons, e1, e2, he]
  have hcons : pre ++ (p, q1 ++ n :: q2) :: post = pre ++ ([(p, q1 ++ n :: q2)] ++ post) := by
    simp
  rw [hcons, dropId_append, dropId_append, hpre, hpost, hmid]
  by_cases he : q1 ++ q2 = []
  · simp [he]
  · simp [he]

/-! ## `remove` on a consistent book -/

theorem indexOf_dropId (id : Nat) (levels : List (Nat × List Node)) :
    indexOf (dropId id levels) = (indexOf levels).filter (fun e => e.1 != id) := by
  unfold indexOf
  rw [allNodes_dropId, List.filter_map]
  rfl

theorem length_allNodes_dropId {levels : List (Nat × List Node)} {n : Node}
    (hn : n ∈ allNodes levels)
    (hnd : ((allNodes levels).map (fun m => m.order.id)).Nodup) :
    (allNodes (dropId n.order.id levels)).length + 1 = (allNodes levels).length := by
  rw [allNodes_dropId]
  generalize allNodes levels = ns at hn hnd
  induction ns with
  | nil => simp at hn
  | cons m rest ih =>
    simp only [List.map_cons, List.nodup_cons] at hnd
    rcases List.mem_cons.1 hn with heq | hin
    · subst heq
      have hrest : rest.filter (fun m => m.order.id != n.order.id) = rest := by
        rw [List.filter_eq_self]
        intro x hx
        have : x.order.id ≠ n.order.id := by
          intro heq
          exact hnd.1 (heq ▸ List.mem_map.2 ⟨x, hx, rfl⟩)
        simpa using this
      simp [List.filter_cons, hrest]
    · have hne : m.order.id ≠ n.order.id := by
        intro heq
        exact hnd.1 (heq ▸ List.mem_map.2 ⟨n, hin, rfl⟩)
      have := ih hin hnd.2
      simp only [List.filter_cons, bne_iff_ne, ne_eq, hne, not_false_eq_true, if_true,
        List.length_cons]
      omega

theorem remove_of_WF {b : RBTreeContainer} (hwf : WF b) {n : Node}
    (hn : n ∈ allNodes b.priceLevels_) :
    ∃ b1, b.remove n.order.id = some b1
      ∧ b1.priceLevels_ = dropId n.order.id b.priceLevels_
      ∧ b1.orderMap_ = mapErase n.order.id b.orderMap_
      ∧ b1.size_ + 1 = b.size_
      ∧ b1.cmp_fn_ = b.cmp_fn_ ∧ b1.fresh_ = b.fresh_ ∧ WF b1 := by
  obtain ⟨pre, q1, q2, post, hl, hpre, _⟩ := hwf.split hn
  have hrem := remove_split hl (hwf.mapFind hn) hwf.2.2.2.1 rfl hpre
  have hdrop : dropId n.order.id b.priceLevels_
      = pre ++ (if q1 ++ q2 = [] then post else (n.order.price, q1 ++ q2) :: post) := by
    rw [hl]
    exact dropId_split (hl ▸ hwf.2.1) (hl ▸ hwf.2.2.2.2.1)
  have hlen := length_allNodes_dropId hn hwf.2.2.2.2.1
  have hsize : b.size_ = (allNodes b.priceLevels_).length := hwf.2.2.2.2.2.2.2.1
  have hpos : b.size_ ≠ 0 := by
    rw [hsize]
    exact Nat.ne_of_gt (List.length_pos_of_mem hn)
  refine ⟨_, hrem, hdrop.symm, rfl, ?_, rfl, rfl, ?_⟩
  · simp only [hpos, if_false]
    omega
  · obtain ⟨hk, hne, hpr, hadr, hid, hmk, hiff, hsz, hfr⟩ := hwf
    have hsub : (allNodes (dropId n.order.id b.priceLevels_)).Sublist
        (allNodes b.priceLevels_) := by
      rw [allNodes_dropId]
      exact List.filter_sublist _
    refine ⟨?_, ?_, ?_, ?_, ?_, ?_, ?_, ?_, ?_⟩
    · show List.Pairwise _ (List.map Prod.fst (pre ++ _))
      rw [← hdrop]
      exact List.Pairwise.sublist (keys_dropId _ _) hk
    · show ∀ l ∈ pre ++ _, l.2 ≠ []
      rw [← hdrop]
      intro l hlm
      exact (mem_dropId hlm).1
    · show ∀ l ∈ pre ++ _, ∀ m ∈ l.2, m.order.price = l.1
      rw [← hdrop]
      intro l hlm m hm
      obtain ⟨_, q, hq, heq⟩ := mem_dropId hlm
      rw [heq] at hm
      exact hpr (l.1, q) hq m (List.mem_filter.1 hm).1
    · show (List.map Node.addr (allNodes (pre ++ _))).Nodup
      rw [← hdrop]
      exact List.Nodup.sublist (hsub.map _) hadr
    · show (List.map (fun m => m.order.id) (allNodes (pre ++ _))).Nodup
      rw [← hdrop]
      exact List.Nodup.sublist (hsub.map _) hid
    · show (List.map Prod.fst (mapErase n.order.id b.orderMap_)).Nodup
      exact List.Nodup.sublist ((List.filter_sublist _).map _) hmk
    · show ∀ e, e ∈ mapErase n.order.id b.orderMap_ ↔ e ∈ indexOf (pre ++ _)
      rw [← hdrop, indexOf_dropId]
      intro e
      rw [mem_mapErase, List.mem_filter, hiff e]
      simp
    · show (if b.size_ = 0 then 2 ^ 64 - 1 else b.size_ - 1) = (allNodes (pre ++ _)).length
      rw [← hdrop]
      simp only [hpos, if_false]
      omega
    · show ∀ m ∈ allNodes (pre ++ _), m.addr < b.fresh_
      rw [← hdrop]
      intro m hm
      exact hfr m (hsub.subset hm)

/-! ## Quantity updates through an iterator -/

theorem allNodes_setQuantityAt (h x : Nat) (levels : List (Nat × List Node)) :
    allNodes (setQuantityAt h x levels) = (allNodes levels).map
      (fun n => if n.addr = h then { n with order := n.order.setQuantity x } else n) := by
  induction levels with
  | nil => rfl
  | cons l rest ih =>
    unfold setQuantityAt at ih ⊢
    simp only [List.map_cons, allNodes_cons, List.map_append, ih]

theorem setQuantityAt_absent {h x : Nat} {levels : List (Nat × List Node)}
    (ha : ∀ n ∈ allNodes levels, n.addr ≠ h) : setQuantityAt h x levels = levels := by
  induction levels with
  | nil => rfl
  | cons l rest ih =>
    have h1 : l.2.map
        (fun n => if n.addr = h then { n with order := n.order.setQuantity x } else n) = l.2 := by
      conv_rhs => rw [← List.map_id l.2]
      refine List.map_congr_left ?_
      intro n hn
      have := ha n (by simp [hn])
      simp [this]
    have h2 := ih (fun n hn => ha n (by simp [hn]))
    unfold setQuantityAt at h2 ⊢
    simp only [List.map_cons, h1, h2]

theorem setQuantityAt_front {p x : Nat} {n : Node} {q : List Node}
    {rest : List (Nat × List Node)}
    (hnd : ((allNodes ((p, n :: q) :: rest)).map Node.addr).Nodup) :
    setQuantityAt n.addr x ((p, n :: q) :: rest)
      = (p, { n with order := n.order.setQuantity x } :: q) :: rest := by
  simp only [allNodes_cons, List.cons_append, List.map_cons, List.nodup_cons] at hnd
  have hfresh : ∀ m ∈ q ++ allNodes rest, m.addr ≠ n.addr := by
    intro m hm heq
    exact hnd.1 (heq ▸ List.mem_map.2 ⟨m, hm, rfl⟩)
  have h1 : setQuantityAt n.addr x [(p, q)] = [(p, q)] :=
    setQuantityAt_absent (fun m hm => hfresh m (by simpa using Or.inl (by simpa using hm)))
  have h2 : setQuantityAt n.addr x rest = rest :=
    setQuantityAt_absent (fun m hm => hfresh m (by simp [hm]))
  unfold setQuantityAt at h1 h2 ⊢
  simp only [List.map_cons, List.map_nil, List.cons.injEq, Prod.mk.injEq, true_and,
    and_true] at h1
  simp only [List.map_cons, h1, h2, if_true]

theorem WF_setQuantityAt {b : RBTreeContainer} (hwf : WF b) (h x : Nat) :
    WF { b with priceLevels_ := setQuantityAt h x b.priceLevels_ } := by
  obtain ⟨hk, hne, hpr, hadr, hid, hmk, hiff, hsz, hfr⟩ := hwf
  have hkeys : (setQuantityAt h x b.priceLevels_).map Prod.fst = b.priceLevels_.map Prod.fst := by
    simp [setQuantityAt, List.map_map, Function.comp_def]
  have haddr : (allNodes (setQuantityAt h x b.priceLevels_)).map Node.addr
      = (allNodes b.priceLevels_).map Node.addr := by
    rw [allNodes_setQuantityAt, List.map_map]
    refine List.map_congr_left ?_
    intro n _
    by_cases hc : n.addr = h <;> simp [hc]
  have hids : (allNodes (setQuantityAt h x b.priceLevels_)).map (fun m => m.order.id)
      = (allNodes b.priceLevels_).map (fun m => m.order.id) := by
    rw [allNodes_setQuantityAt, List.map_map]
    refine List.map_congr_left ?_
    intro n _
    by_cases hc : n.addr = h <;> simp [hc, Order.setQuantity]
  have hidx : indexOf (setQuantityAt h x b.priceLevels_) = indexOf b.priceLevels_ := by
    unfold indexOf
    rw [allNodes_setQuantityAt, List.map_map]
    refine List.map_congr_left ?_
    intro n _
    by_cases hc : n.addr = h <;> simp [hc, Order.setQuantity]
  refine ⟨?_, ?_, ?_, ?_, ?_, hmk, ?_, ?_, ?_⟩
  · show List.Pairwise _ (List.map Prod.fst (setQuantityAt h x b.priceLevels_))
    rw [hkeys]
    exact hk
  · intro l hl
    change l ∈ setQuantityAt h x b.priceLevels_ at hl
    unfold setQuantityAt at hl
    obtain ⟨l0, hl0, rfl⟩ := List.mem_map.1 hl
    have := hne l0 hl0
    simpa using this
  · intro l hl m hm
    change l ∈ setQuantityAt h x b.priceLevels_ at hl
    unfold setQuantityAt at hl
    obtain ⟨l0, hl0, rfl⟩ := List.mem_map.1 hl
    obtain ⟨m0, hm0, rfl⟩ := List.mem_map.1 hm
    have := hpr l0 hl0 m0 hm0
    by_cases hc : m0.addr = h <;> simp [hc, Order.setQuantity, this]
  · show (List.map Node.addr (allNodes (setQuantityAt h x b.priceLevels_))).Nodup
    rw [haddr]
    exact hadr
  · show (List.map (fun m => m.order.id) (allNodes (setQuantityAt h x b.priceLevels_))).Nodup
    rw [hids]
    exact hid
  · show ∀ e, e ∈ b.orderMap_ ↔ e ∈ indexOf (setQuantityAt h x b.priceLevels_)
    rw [hidx]
    exact hiff
  · show b.size_ = (allNodes (setQuantityAt h x b.priceLevels_)).length
    rw [allNodes_setQuantityAt, List.length_map]
    exact hsz
  · intro m hm
    change m ∈ allNodes (setQuantityAt h x b.priceLevels_) at hm
    have : m.addr ∈ (allNodes (setQuantityAt h x b.priceLevels_)).map Node.addr :=
      List.mem_map.2 ⟨m, hm, rfl⟩
    rw [haddr] at this
    obtain ⟨m0, hm0, heq⟩ := List.mem_map.1 this
    rw [← heq]
    exact hfr m0 hm0

/-! ## The matcher on one queue -/

theorem matchQueue_zero (a p : Nat) (q : List Node) : matchQueue a p 0 q = (q, 0, []) := by
  cases q <;> simp [matchQueue]

theorem matchQueue_full (a p : Nat) {qty : Nat} {n : Node} (q : List Node)
    (h0 : 0 < qty) (h1 : n.order.quantity ≤ qty) :
    matchQueue a p qty (n :: q)
      = ((matchQueue a p (qty - n.order.quantity) q).1,
         (matchQueue a p (qty - n.order.quantity) q).2.1,
         ⟨a, n.order.id, n.order.quantity, p⟩
           :: (matchQueue a p (qty - n.order.quantity) q).2.2) := by
  have hmin : min qty n.order.quantity = n.order.quantity := Nat.min_eq_right h1
  simp [matchQueue, h0, hmin]

theorem matchQueue_part (a p : Nat) {qty : Nat} {n : Node} (q : List Node)
    (h0 : 0 < qty) (h1 : qty < n.order.quantity) :
    matchQueue a p qty (n :: q)
      = ({ n with order := n.order.setQuantity (n.order.quantity - qty) } :: q, 0,
         [⟨a, n.order.id, qty, p⟩]) := by
  have hmin : min qty n.order.quantity = qty := Nat.min_eq_left (Nat.le_of_lt h1)
  have hne : ¬ n.order.quantity - qty = 0 := by omega
  simp [matchQueue, h0, hmin, hne]

theorem matchQueue_left (a p : Nat) : ∀ (q : List Node) (qty : Nat),
    (matchQueue a p qty q).1 ≠ [] → (matchQueue a p qty q).2.1 = 0 := by
  intro q
  induction q with
  | nil => intro qty h; simp [matchQueue] at h
  | cons n q ih =>
    intro qty h
    by_cases h0 : 0 < qty
    · by_cases h1 : n.order.quantity ≤ qty
      · rw [matchQueue_full a p q h0 h1] at h ⊢
        exact ih _ h
      · rw [matchQueue_part a p q h0 (Nat.lt_of_not_le h1)]
    · have : qty = 0 := by omega
      subst this
      rw [matchQueue_zero]

/-! ## The inner loop of `cross` -/

theorem Order.setQuantity_self (o : Order) : o.setQuantity o.quantity = o := rfl

theorem crossLevel_zero (p : Nat) (l : List Order) (s : CrossState)
    (h : s.oppSideOrder.quantity = 0) : crossLevel p l s = some s := by
  cases l with
  | nil => rfl
  | cons x l => simp [crossLevel, h]

theorem dropId_front {p : Nat} {n : Node} {q : List Node} {rest : List (Nat × List Node)}
    (hne : ∀ l ∈ (p, n :: q) :: rest, l.2 ≠ [])
    (hnd : ((allNodes ((p, n :: q) :: rest)).map (fun m => m.order.id)).Nodup) :
    dropId n.order.id ((p, n :: q) :: rest) = (if q = [] then rest else (p, q) :: rest) := by
  have := @dropId_split [] rest p [] q n hne hnd
  simpa using this

theorem filter_index_trans {m : List (Nat × Nat)} {i1 i2 : List (Nat × Nat)}
    (hsub : ∀ e ∈ i2, e ∈ i1) :
    (m.filter (fun e => decide (e ∈ i1))).filter (fun e => decide (e ∈ i2))
      = m.filter (fun e => decide (e ∈ i2)) := by
  rw [List.filter_filter]
  refine List.filter_congr ?_
  intro e _
  by_cases h : e ∈ i2
  · simp [h, hsub e h]
  · simp [h]

theorem mapErase_eq_filter {b : RBTreeContainer} (hwf : WF b) (id : Nat) :
    mapErase id b.orderMap_
      = b.orderMap_.filter (fun e => decide (e ∈ indexOf (dropId id b.priceLevels_))) := by
  unfold mapErase
  refine List.filter_congr ?_
  intro e he
  have h1 : e ∈ indexOf b.priceLevels_ := (hwf.2.2.2.2.2.2.1 e).1 he
  rw [indexOf_dropId]
  by_cases h : e.1 = id <;> simp [List.mem_filter, h1, h]

theorem crossLevel_spec (p : Nat) : ∀ (q : List Node) (b : RBTreeContainer) (o : Order)
    (ts0 : List Trade) (rest : List (Nat × List Node)) (r : List Node × Nat × List Trade),
    WF b → b.priceLevels_ = (p, q) :: rest → matchQueue o.id p o.quantity q = r →
    ∃ b1, crossLevel p (q.map Node.order) ⟨b, o, ts0⟩
        = some ⟨b1, o.setQuantity r.2.1, ts0 ++ r.2.2⟩
      ∧ b1.priceLevels_ = (if r.1 = [] then rest else (p, r.1) :: rest)
      ∧ WF b1 ∧ b1.cmp_fn_ = b.cmp_fn_ ∧ b1.fresh_ = b.fresh_
      ∧ b1.orderMap_ = b.orderMap_.filter (fun e => decide (e ∈ indexOf b1.priceLevels_))
      ∧ (∀ e ∈ indexOf b1.priceLevels_, e ∈ indexOf b.priceLevels_) := by
  intro q
  induction q with
  | nil =>
    intro b o ts0 rest r hwf hl _
    exact absurd rfl (hwf.2.1 (p, []) (by rw [hl]; simp))
  | cons n q ih =>
    intro b o ts0 rest r hwf hl hr
    have hn : n ∈ allNodes b.priceLevels_ := by rw [hl]; simp
    have hself : b.orderMap_
        = b.orderMap_.filter (fun e => decide (e ∈ indexOf b.priceLevels_)) := by
      symm
      rw [List.filter_eq_self]
      intro e he
      simpa using (hwf.2.2.2.2.2.2.1 e).1 he
    by_cases h0 : 0 < o.quantity
    · by_cases h1 : n.order.quantity ≤ o.quantity
      · -- the resting order is filled completely and removed
        rw [matchQueue_full o.id p q h0 h1] at hr
        obtain ⟨b1, hrem, hlev, hmap, _, hcmp, hfresh, hwf1⟩ := remove_of_WF hwf hn
        have hlev1 : b1.priceLevels_ = (if q = [] then rest else (p, q) :: rest) := by
          rw [hlev, hl]
          exact dropId_front (hl ▸ hwf.2.1) (hl ▸ hwf.2.2.2.2.1)
        have hmap1 : b1.orderMap_
            = b.orderMap_.filter (fun e => decide (e ∈ indexOf b1.priceLevels_)) := by
          rw [hmap, hlev]
          exact mapErase_eq_filter hwf _
        have hsub1 : ∀ e ∈ indexOf b1.priceLevels_, e ∈ indexOf b.priceLevels_ := by
          intro e he
          rw [hlev, indexOf_dropId] at he
          exact (List.mem_filter.1 he).1
        have hmin : min o.quantity n.order.quantity = n.order.quantity := Nat.min_eq_right h1
        have hstep : crossLevel p ((n :: q).map Node.order) ⟨b, o, ts0⟩
            = crossLevel p (q.map Node.order)
                ⟨b1, o.setQuantity (o.quantity - n.order.quantity),
                  ts0 ++ [⟨o.id, n.order.id, n.order.quantity, p⟩]⟩ := by
          simp [crossLevel, h0, hmin, hrem]
        rw [hstep]
        by_cases hq : q = []
        · subst hq
          subst hr
          refine ⟨b1, ?_, ?_, hwf1, hcmp, hfresh, hmap1, hsub1⟩
          · simp [crossLevel, matchQueue]
          · simpa [matchQueue] using hlev1
        · simp only [hq, if_false] at hlev1
          obtain ⟨b2, hrun, hlev2, hwf2, hcmp2, hfresh2, hmap2, hsub2⟩ :=
            ih b1 (o.setQuantity (o.quantity - n.order.quantity))
              (ts0 ++ [⟨o.id, n.order.id, n.order.quantity, p⟩]) rest _ hwf1 hlev1 rfl
          subst hr
          refine ⟨b2, ?_, hlev2, hwf2, hcmp2.trans hcmp, hfresh2.trans hfresh, ?_, ?_⟩
          · rw [hrun]
            simp [Order.setQuantity]
          · rw [hmap2, hmap1]
            exact filter_index_trans hsub2
          · intro e he
            exact hsub1 e (hsub2 e he)
      · -- the resting order is filled in part and stays at the front
        have h1lt : o.quantity < n.order.quantity := Nat.lt_of_not_le h1
        rw [matchQueue_part o.id p q h0 h1lt] at hr
        subst hr
        have hmin : min o.quantity n.order.quantity = o.quantity :=
          Nat.min_eq_left (Nat.le_of_lt h1lt)
        have hfind := hwf.mapFind hn
        have hd := deref_of_mem hwf.2.2.2.1 hn
        have hset : setQuantityAt n.addr (n.order.quantity - o.quantity) b.priceLevels_
            = (p, { n with order := n.order.setQuantity (n.order.quantity - o.quantity) } :: q)
                :: rest := by
          rw [hl]
          exact setQuantityAt_front (hl ▸ hwf.2.2.2.1)
        have hwf1 := WF_setQuantityAt hwf n.addr (n.order.quantity - o.quantity)
        have hidx : indexOf (setQuantityAt n.addr (n.order.quantity - o.quantity)
            b.priceLevels_) = indexOf b.priceLevels_ := by
          unfold indexOf
          rw [allNodes_setQuantityAt, List.map_map]
          refine List.map_congr_left ?_
          intro m _
          by_cases hc : m.addr = n.addr <;> simp [hc, Order.setQuantity]
        refine ⟨{ b with priceLevels_ :=
            setQuantityAt n.addr (n.order.quantity - o.quantity) b.priceLevels_ },
          ?_, ?_, hwf1, rfl, rfl, ?_, ?_⟩
        · have hnle : ¬ n.order.quantity ≤ o.quantity := h1
          simp only [List.map_cons, crossLevel, h0, if_true, hmin, hnle, if_false, hfind, hd,
            Nat.sub_self]
          rw [crossLevel_zero]
          rfl
        · simp [hset]
        · show b.orderMap_ = _
          rw [hidx]
          exact hself
        · intro e he
          change e ∈ indexOf (setQuantityAt n.addr (n.order.quantity - o.quantity)
            b.priceLevels_) at he
          rw [hidx] at he
          exact he
    · have hz : o.quantity = 0 := by omega
      rw [hz, matchQueue_zero] at hr
      subst hr
      refine ⟨b, ?_, ?_, hwf, rfl, rfl, hself, fun e he => he⟩
      · have := crossLevel_zero p ((n :: q).map Node.order) ⟨b, o, ts0⟩ hz
        rw [this]
        simp [Order.setQuantity, ← hz]
      · simp [hl]

/-! ## The outer loop of `cross` -/

theorem WF.index_length {b : RBTreeContainer} (hwf : WF b) :
    b.orderMap_.length = (allNodes b.priceLevels_).length := by
  obtain ⟨_, _, _, _, hid, hmk, hiff, _, _⟩ := hwf
  have h1 : b.orderMap_.Nodup := List.Nodup.of_map _ hmk
  have h2 : (indexOf b.priceLevels_).Nodup := by
    refine List.Nodup.of_map Prod.fst ?_
    unfold indexOf
    rw [List.map_map]
    exact hid
  have hperm := (List.perm_ext_iff_of_nodup h1 h2).2 hiff
  rw [hperm.length_eq]
  simp [indexOf]

theorem matchLevels_congr (c : Compare) {o o1 : Order} (hid : o1.id = o.id)
    (hprice : o1.price = o.price) : ∀ (levels : List (Nat × List Node)) (qty : Nat),
    matchLevels c o1 qty levels = matchLevels c o qty levels := by
  intro levels
  induction levels with
  | nil => intro qty; rfl
  | cons l rest ih =>
    intro qty
    obtain ⟨p, q⟩ := l
    simp only [matchLevels, marketable, hid, hprice, ih]

theorem crossLoop_zero (fuel : Nat) (s : CrossState) (hf : 1 ≤ fuel)
    (h : s.oppSideOrder.quantity = 0) : crossLoop fuel s = some s := by
  obtain ⟨f, rfl⟩ : ∃ f, fuel = f + 1 := ⟨fuel - 1, by omega⟩
  unfold crossLoop
  cases hl : s.book.priceLevels_ with
  | nil => rfl
  | cons l rest =>
    obtain ⟨p, q⟩ := l
    simp [h]

theorem crossLoop_spec : ∀ (levels : List (Nat × List Node)) (fuel : Nat)
    (b : RBTreeContainer) (o : Order) (ts0 : List Trade)
    (r : List (Nat × List Node) × Nat × List Trade),
    WF b → b.priceLevels_ = levels → levels.length + 1 ≤ fuel →
    matchLevels b.cmp_fn_ o o.quantity levels = r →
    ∃ b1, crossLoop fuel ⟨b, o, ts0⟩ = some ⟨b1, o.setQuantity r.2.1, ts0 ++ r.2.2⟩
      ∧ b1.priceLevels_ = r.1
      ∧ WF b1 ∧ b1.cmp_fn_ = b.cmp_fn_ ∧ b1.fresh_ = b.fresh_
      ∧ b1.orderMap_ = b.orderMap_.filter (fun e => decide (e ∈ indexOf b1.priceLevels_))
      ∧ (∀ e ∈ indexOf b1.priceLevels_, e ∈ indexOf b.priceLevels_) := by
  intro levels
  induction levels with
  | nil =>
    intro fuel b o ts0 r hwf hl hfuel hr
    obtain ⟨f, rfl⟩ : ∃ f, fuel = f + 1 := ⟨fuel - 1, by omega⟩
    simp only [matchLevels] at hr
    subst hr
    refine ⟨b, ?_, hl, hwf, rfl, rfl, ?_, fun e he => he⟩
    · simp [crossLoop, hl, Order.setQuantity]
    · symm
      rw [List.filter_eq_self]
      intro e he
      simpa using (hwf.2.2.2.2.2.2.1 e).1 he
  | cons l rest ih =>
    intro fuel b o ts0 r hwf hl hfuel hr
    obtain ⟨p, q⟩ := l
    obtain ⟨f, rfl⟩ : ∃ f, fuel = f + 1 := ⟨fuel - 1, by omega⟩
    simp only [List.length_cons] at hfuel
    by_cases hc : (p = o.price ∨ b.cmp_fn_.fn p o.price = true) ∧ 0 < o.quantity
    · have hm : marketable b.cmp_fn_ o p = true ∧ 0 < o.quantity := by
        refine ⟨?_, hc.2⟩
        rcases hc.1 with h | h <;> simp [marketable, h]
      obtain ⟨b1, hrun1, hlev1, hwf1, hcmp1, hfresh1, hmap1, hsub1⟩ :=
        crossLevel_spec p q b o ts0 rest _ hwf hl rfl
      have hstep : crossLoop (f + 1) ⟨b, o, ts0⟩
          = crossLoop f ⟨b1, o.setQuantity (matchQueue o.id p o.quantity q).2.1,
              ts0 ++ (matchQueue o.id p o.quantity q).2.2⟩ := by
        simp only [crossLoop, hl, hc, and_self, if_true, hrun1]
      rw [hstep]
      by_cases he : (matchQueue o.id p o.quantity q).1 = []
      · simp only [he, if_true] at hlev1
        have hr2 : r = ((matchLevels b.cmp_fn_ o (matchQueue o.id p o.quantity q).2.1 rest).1,
            (matchLevels b.cmp_fn_ o (matchQueue o.id p o.quantity q).2.1 rest).2.1,
            (matchQueue o.id p o.quantity q).2.2
              ++ (matchLevels b.cmp_fn_ o (matchQueue o.id p o.quantity q).2.1 rest).2.2) := by
          rw [← hr]
          simp only [matchLevels, hm, and_self, if_true, he]
        obtain ⟨b2, hrun2, hlev2, hwf2, hcmp2, hfresh2, hmap2, hsub2⟩ :=
          ih f b1 (o.setQuantity (matchQueue o.id p o.quantity q).2.1)
            (ts0 ++ (matchQueue o.id p o.quantity q).2.2) _ hwf1 hlev1 (by omega) rfl
        have hcongr := matchLevels_congr b1.cmp_fn_
          (show (o.setQuantity (matchQueue o.id p o.quantity q).2.1).id = o.id from rfl)
          (show (o.setQuantity (matchQueue o.id p o.quantity q).2.1).price = o.price from rfl)
          rest (matchQueue o.id p o.quantity q).2.1
        have hq : (o.setQuantity (matchQueue o.id p o.quantity q).2.1).quantity
            = (matchQueue o.id p o.quantity q).2.1 := rfl
        rw [hq, hcongr, hcmp1] at hrun2 hlev2
        refine ⟨b2, ?_, ?_, hwf2, hcmp2.trans hcmp1, hfresh2.trans hfresh1, ?_, ?_⟩
        · rw [hrun2, hr2]
          simp [Order.setQuantity]
        · rw [hlev2, hr2]
        · rw [hmap2, hmap1]
          exact filter_index_trans hsub2
        · intro e he2
          exact hsub1 e (hsub2 e he2)
      · simp only [he, if_false] at hlev1
        have hr2 : r = ((p, (matchQueue o.id p o.quantity q).1) :: rest,
            (matchQueue o.id p o.quantity q).2.1, (matchQueue o.id p o.quantity q).2.2) := by
          rw [← hr]
          simp only [matchLevels, hm, and_self, if_true, he, if_false]
        have hzero := matchQueue_left o.id p q o.quantity he
        refine ⟨b1, ?_, ?_, hwf1, hcmp1, hfresh1, hmap1, hsub1⟩
        · rw [crossLoop_zero f _ (by omega) (by simpa [Order.setQuantity] using hzero), hr2]
        · rw [hlev1, hr2]
    · have hm : ¬ (marketable b.cmp_fn_ o p = true ∧ 0 < o.quantity) := by
        intro h
        apply hc
        refine ⟨?_, h.2⟩
        have := h.1
        simpa [marketable] using this
      have hr2 : r = ((p, q) :: rest, o.quantity, []) := by
        rw [← hr]
        simp only [matchLevels, hm, if_false]
      refine ⟨b, ?_, ?_, hwf, rfl, rfl, ?_, fun e he => he⟩
      · simp only [crossLoop, hl, hc, if_false, hr2]
        simp [Order.setQuantity]
      · rw [hl, hr2]
      · symm
        rw [List.filter_eq_self]
        intro e he
        simpa using (hwf.2.2.2.2.2.2.1 e).1 he

theorem cross_spec {b : RBTreeContainer} (hwf : WF b) (o : Order) :
    ∃ b1, b.cross o = some ⟨b1, o.setQuantity (matchLevels b.cmp_fn_ o o.quantity
          b.priceLevels_).2.1, (matchLevels b.cmp_fn_ o o.quantity b.priceLevels_).2.2⟩
      ∧ b1.priceLevels_ = (matchLevels b.cmp_fn_ o o.quantity b.priceLevels_).1
      ∧ WF b1 ∧ b1.cmp_fn_ = b.cmp_fn_ ∧ b1.fresh_ = b.fresh_
      ∧ b1.orderMap_ = b.orderMap_.filter (fun e => decide (e ∈ indexOf b1.priceLevels_))
      ∧ (∀ e ∈ indexOf b1.priceLevels_, e ∈ indexOf b.priceLevels_) := by
  have hfuel : b.priceLevels_.length + 1 ≤ b.orderMap_.length + 2 := by
    have := length_le_allNodes hwf.2.1
    rw [hwf.index_length]
    omega
  have := crossLoop_spec b.priceLevels_ (b.orderMap_.length + 2) b o [] _ hwf rfl hfuel rfl
  simpa [RBTreeContainer.cross] using this

/-! ## Quantity conservation on every state -/

theorem crossLevel_conserve (p : Nat) : ∀ (l : List Order) (s s1 : CrossState),
    crossLevel p l s = some s1 →
    s1.oppSideOrder.quantity ≤ s.oppSideOrder.quantity
      ∧ (s1.trades.map Trade.quantity).sum + s1.oppSideOrder.quantity
          = (s.trades.map Trade.quantity).sum + s.oppSideOrder.quantity := by
  intro l
  induction l with
  | nil =>
    intro s s1 h
    simp only [crossLevel, Option.some.injEq] at h
    subst h
    exact ⟨Nat.le_refl _, rfl⟩
  | cons c l ih =>
    intro s s1 h
    have hmin : min s.oppSideOrder.quantity c.quantity ≤ s.oppSideOrder.quantity :=
      Nat.min_le_left _ _
    simp only [crossLevel] at h
    split at h
    · split at h
      · split at h
        · exact absurd h (by simp)
        · have := ih _ _ h
          simp only [Order.setQuantity, List.map_append, List.map_cons, List.map_nil,
            List.sum_append, List.sum_cons, List.sum_nil] at this
          omega
      · split at h
        · exact absurd h (by simp)
        · split at h
          · exact absurd h (by simp)
          · have := ih _ _ h
            simp only [Order.setQuantity, List.map_append, List.map_cons, List.map_nil,
              List.sum_append, List.sum_cons, List.sum_nil] at this
            omega
    · simp only [Option.some.injEq] at h
      subst h
      exact ⟨Nat.le_refl _, rfl⟩

theorem crossLoop_conserve : ∀ (fuel : Nat) (s s1 : CrossState),
    crossLoop fuel s = some s1 →
    s1.oppSideOrder.quantity ≤ s.oppSideOrder.quantity
      ∧ (s1.trades.map Trade.quantity).sum + s1.oppSideOrder.quantity
          = (s.trades.map Trade.quantity).sum + s.oppSideOrder.quantity := by
  intro fuel
  induction fuel with
  | zero =>
    intro s s1 h
    simp [crossLoop] at h
  | succ f ih =>
    intro s s1 h
    unfold crossLoop at h
    split at h
    · simp only [Option.some.injEq] at h
      subst h
      exact ⟨Nat.le_refl _, rfl⟩
    · split at h
      · split at h
        · exact absurd h (by simp)
        · rename_i s2 hs2
          have h1 := crossLevel_conserve _ _ _ _ hs2
          have h2 := ih _ _ h
          omega
      · simp only [Option.some.injEq] at h
        subst h
        exact ⟨Nat.le_refl _, rfl⟩

/-! ## The scenarios of spec section 8, evaluated -/

theorem WF_askBook : WF askBook := by decide

/-- C1. In a single `cross` call the filled quantities of the returned trades add up to the
incoming quantity before the call minus the incoming quantity after it, and the incoming
quantity never increases.  This holds on every state on which the call returns, and the call
returns on every consistent book. -/
theorem cross_quantity_conservation (b : RBTreeContainer) (o : Order) :
    (WF b → ∃ s, b.cross o = some s)
    ∧ ∀ s, b.cross o = some s →
        s.oppSideOrder.quantity ≤ o.quantity
        ∧ (s.trades.map Trade.quantity).sum = o.quantity - s.oppSideOrder.quantity := by
  constructor
  · intro hwf
    obtain ⟨b1, h, _⟩ := cross_spec hwf o
    exact ⟨_, h⟩
  · intro s hs
    have := crossLoop_conserve _ _ _ hs
    simp only [List.map_nil, List.sum_nil, Nat.zero_add] at this
    omega

/-- Scenario 2 of spec section 8 as an instance of C1. -/
theorem cross_quantity_conservation_witness :
    WF askBook
    ∧ ∃ s, askBook.cross buy12 = some s
        ∧ s.oppSideOrder.quantity ≤ buy12.quantity
        ∧ (s.trades.map Trade.quantity).sum = buy12.quantity - s.oppSideOrder.quantity :=
  ⟨by decide,
    match (cross_quantity_conservation askBook buy12).1 (by decide) with
    | ⟨s, hs⟩ => ⟨s, hs, (cross_quantity_conservation askBook buy12).2 s hs⟩⟩

/-! ## C2: `remove` -/

theorem level_unique {levels : List (Nat × List Node)} (hnd : (levels.map Prod.fst).Nodup)
    {p : Nat} {q1 q2 : List Node} (h1 : (p, q1) ∈ levels) (h2 : (p, q2) ∈ levels) :
    q1 = q2 := by
  have := List.inj_on_of_nodup_map hnd h1 h2 rfl
  exact congrArg Prod.snd this

theorem allNodes_pushBackAt (c : Compare) (p : Nat) (n : Node) :
    ∀ levels : List (Nat × List Node),
      (allNodes (pushBackAt c p n levels)).Perm (n :: allNodes levels) := by
  intro levels
  induction levels with
  | nil => simp [pushBackAt]
  | cons l rest ih =>
    obtain ⟨k, x⟩ := l
    unfold pushBackAt
    split
    · simp only [allNodes_cons]
      exact (List.Perm.append_left x ih).trans List.perm_middle
    · split
      · simp
      · simp only [allNodes_cons, List.append_assoc, List.singleton_append]
        exact List.perm_middle

theorem keys_pushBackAt (c : Compare) (p : Nat) (n : Node) :
    ∀ levels : List (Nat × List Node),
      ∀ k ∈ (pushBackAt c p n levels).map Prod.fst, k = p ∨ k ∈ levels.map Prod.fst := by
  intro levels
  induction levels with
  | nil =>
    intro k hk
    simp [pushBackAt] at hk
    exact Or.inl hk
  | cons l rest ih =>
    obtain ⟨k0, x⟩ := l
    intro k hk
    unfold pushBackAt at hk
    split at hk
    · simp only [List.map_cons, List.mem_cons] at hk ⊢
      rcases hk with h | h
      · exact Or.inr (Or.inl h)
      · rcases ih k h with h2 | h2
        · exact Or.inl h2
        · exact Or.inr (Or.inr h2)
    · split at hk
      · simp only [List.map_cons, List.mem_cons] at hk ⊢
        rcases hk with h | h | h
        · exact Or.inl h
        · exact Or.inr (Or.inl h)
        · exact Or.inr (Or.inr h)
      · simp only [List.map_cons, List.mem_cons] at hk ⊢
        exact Or.inr hk

theorem sorted_pushBackAt (c : Compare) (p : Nat) (n : Node) :
    ∀ levels : List (Nat × List Node),
      (levels.map Prod.fst).Pairwise (fun a b => c.fn a b = true) →
      ((pushBackAt c p n levels).map Prod.fst).Pairwise (fun a b => c.fn a b = true) := by
  intro levels
  induction levels with
  | nil => intro _; simp [pushBackAt]
  | cons l rest ih =>
    obtain ⟨k, x⟩ := l
    intro hs
    simp only [List.map_cons, List.pairwise_cons] at hs
    unfold pushBackAt
    split
    · rename_i hkp
      simp only [List.map_cons, List.pairwise_cons]
      refine ⟨?_, ih hs.2⟩
      intro k1 hk1
      rcases keys_pushBackAt c p n rest k1 hk1 with h | h
      · rw [h]; exact hkp
      · exact hs.1 k1 h
    · split
      · rename_i hpk
        simp only [List.map_cons, List.pairwise_cons, List.mem_cons]
        refine ⟨?_, hs.1, hs.2⟩
        intro k1 hk1
        rcases hk1 with h | h
        · rw [h]; exact hpk
        · exact c.fn_trans hpk (hs.1 k1 h)
      · simp only [List.map_cons, List.pairwise_cons]
        exact hs

theorem nonempty_pushBackAt (c : Compare) (p : Nat) (n : Node) :
    ∀ levels : List (Nat × List Node), (∀ l ∈ levels, l.2 ≠ []) →
      ∀ l ∈ pushBackAt c p n levels, l.2 ≠ [] := by
  intro levels
  induction levels with
  | nil =>
    intro _ l hl
    simp [pushBackAt] at hl
    subst hl
    simp
  | cons l0 rest ih =>
    obtain ⟨k, x⟩ := l0
    intro hne l hl
    unfold pushBackAt at hl
    split at hl
    · rcases List.mem_cons.1 hl with h | h
      · subst h; exact hne _ (List.mem_cons_self _ _)
      · exact ih (fun y hy => hne y (List.mem_cons_of_mem _ hy)) l h
    · split at hl
      · rcases List.mem_cons.1 hl with h | h
        · subst h; simp
        · exact hne l h
      · rcases List.mem_cons.1 hl with h | h
        · subst h; simp
        · exact hne l (List.mem_cons_of_mem _ h)

theorem price_pushBackAt (c : Compare) (n : Node) :
    ∀ levels : List (Nat × List Node), (∀ l ∈ levels, ∀ m ∈ l.2, m.order.price = l.1) →
      ∀ l ∈ pushBackAt c n.order.price n levels, ∀ m ∈ l.2, m.order.price = l.1 := by
  intro levels
  induction levels with
  | nil =>
    intro _ l hl m hm
    simp [pushBackAt] at hl
    subst hl
    simp at hm
    subst hm
    rfl
  | cons l0 rest ih =>
    obtain ⟨k, x⟩ := l0
    intro hpr l hl m hm
    unfold pushBackAt at hl
    split at hl
    · rcases List.mem_cons.1 hl with h | h
      · subst h; exact hpr _ (List.mem_cons_self _ _) m hm
      · exact ih (fun y hy => hpr y (List.mem_cons_of_mem _ hy)) l h m hm
    · rename_i h1
      split at hl
      · rcases List.mem_cons.1 hl with h | h
        · subst h
          simp at hm
          subst hm
          rfl
        · exact hpr l h m hm
      · rename_i h2
        rcases List.mem_cons.1 hl with h | h
        · subst h
          have hk : k = n.order.price := by
            rcases c.fn_total k n.order.price with h3 | h3 | h3
            · exact absurd h3 h1
            · exact h3
            · exact absurd h3 h2
          rcases List.mem_append.1 hm with h4 | h4
          · exact hpr _ (List.mem_cons_self _ _) m h4
          · simp at h4
            subst h4
            exact hk.symm
        · exact hpr l (List.mem_cons_of_mem _ h) m hm

theorem pushBackAt_present (c : Compare) (p : Nat) (n : Node) (q : List Node) :
    ∀ (pre post : List (Nat × List Node)),
      ((pre ++ (p, q) :: post).map Prod.fst).Pairwise (fun a b => c.fn a b = true) →
      pushBackAt c p n (pre ++ (p, q) :: post) = pre ++ (p, q ++ [n]) :: post := by
  intro pre
  induction pre with
  | nil =>
    intro post _
    simp [pushBackAt, c.fn_irrefl]
  | cons l rest ih =>
    obtain ⟨k, x⟩ := l
    intro post hs
    simp only [List.cons_append, List.map_cons, List.pairwise_cons] at hs
    have hkp : c.fn k p = true := hs.1 p (by simp)
    have hstep : pushBackAt c p n ((k, x) :: (rest ++ (p, q) :: post))
        = (k, x) :: pushBackAt c p n (rest ++ (p, q) :: post) := by
      simp [pushBackAt, hkp]
    rw [List.cons_append, hstep, ih post hs.2, List.cons_append]

theorem pushBackAt_absent (c : Compare) (p : Nat) (n : Node) :
    ∀ levels : List (Nat × List Node),
      (levels.map Prod.fst).Pairwise (fun a b => c.fn a b = true) →
      p ∉ levels.map Prod.fst →
      ∃ pre post, levels = pre ++ post
        ∧ pushBackAt c p n levels = pre ++ (p, [n]) :: post
        ∧ (∀ k ∈ pre.map Prod.fst, c.fn k p = true)
        ∧ (∀ k ∈ post.map Prod.fst, c.fn p k = true) := by
  intro levels
  induction levels with
  | nil =>
    intro _ _
    exact ⟨[], [], rfl, rfl, by simp, by simp⟩
  | cons l rest ih =>
    obtain ⟨k, x⟩ := l
    intro hs hp
    simp only [List.map_cons, List.pairwise_cons] at hs
    simp only [List.map_cons, List.mem_cons, not_or] at hp
    by_cases hkp : c.fn k p = true
    · obtain ⟨pre, post, h1, h2, h3, h4⟩ := ih hs.2 hp.2
      refine ⟨(k, x) :: pre, post, by rw [h1]; rfl, ?_, ?_, h4⟩
      · simp [pushBackAt, hkp, h2]
      · intro k1 hk1
        simp only [List.map_cons, List.mem_cons] at hk1
        rcases hk1 with h | h
        · rw [h]; exact hkp
        · exact h3 k1 h
    · have hpk : c.fn p k = true := by
        rcases c.fn_total k p with h3 | h3 | h3
        · exact absurd h3 hkp
        · exact absurd h3.symm hp.1
        · exact h3
      refine ⟨[], (k, x) :: rest, rfl, ?_, by simp, ?_⟩
      · simp [pushBackAt, hkp, hpk]
      · intro k1 hk1
        simp only [List.map_cons, List.mem_cons] at hk1
        rcases hk1 with h | h
        · rw [h]; exact hpk
        · exact c.fn_trans hpk (hs.1 k1 h)

theorem WF.fresh_id {b : RBTreeContainer} (hwf : WF b) {id : Nat}
    (hc : b.contains id = false) :
    id ∉ b.orderMap_.map Prod.fst ∧ ∀ n ∈ allNodes b.priceLevels_, n.order.id ≠ id := by
  constructor
  · apply mapFind_none_iff.1
    unfold RBTreeContainer.contains at hc
    cases h : hermes.mapFind b.orderMap_ id with
    | none => rfl
    | some v => rw [h] at hc; exact Bool.noConfusion hc
  · intro n hn heq
    have := (hwf.contains_iff id).2 ⟨n, hn, heq⟩
    rw [this] at hc
    exact Bool.noConfusion hc

theorem insert_WF {b : RBTreeContainer} (hwf : WF b) {o : Order}
    (hc : b.contains o.id = false) : WF (b.insert o) := by
  obtain ⟨hkeys, hids⟩ := hwf.fresh_id hc
  obtain ⟨hk, hne, hpr, hadr, hid, hmk, hiff, hsz, hfr⟩ := hwf
  have hperm := allNodes_pushBackAt b.cmp_fn_ o.price ⟨b.fresh_, o⟩ b.priceLevels_
  refine ⟨?_, ?_, ?_, ?_, ?_, ?_, ?_, ?_, ?_⟩
  · exact sorted_pushBackAt _ _ _ _ hk
  · exact nonempty_pushBackAt _ _ _ _ hne
  · exact price_pushBackAt b.cmp_fn_ ⟨b.fresh_, o⟩ _ hpr
  · show (List.map Node.addr (allNodes (pushBackAt _ _ _ _))).Nodup
    rw [(hperm.map Node.addr).nodup_iff]
    simp only [List.map_cons, List.nodup_cons]
    refine ⟨?_, hadr⟩
    intro hmem
    obtain ⟨m, hm, heq⟩ := List.mem_map.1 hmem
    have := hfr m hm
    omega
  · show (List.map (fun m => m.order.id) (allNodes (pushBackAt _ _ _ _))).Nodup
    rw [(hperm.map (fun m => m.order.id)).nodup_iff]
    simp only [List.map_cons, List.nodup_cons]
    refine ⟨?_, hid⟩
    intro hmem
    obtain ⟨m, hm, heq⟩ := List.mem_map.1 hmem
    exact hids m hm heq
  · show (List.map Prod.fst (mapAssign o.id b.fresh_ b.orderMap_)).Nodup
    rw [mapAssign_fresh hkeys]
    simp only [List.map_append, List.map_cons, List.map_nil]
    rw [List.nodup_append]
    refine ⟨hmk, by simp, ?_⟩
    intro k hk1 hk2
    simp at hk2
    exact hkeys (hk2 ▸ hk1)
  · intro e
    show e ∈ mapAssign o.id b.fresh_ b.orderMap_ ↔ e ∈ indexOf (pushBackAt _ _ _ _)
    rw [mapAssign_fresh hkeys]
    have h2 : e ∈ indexOf (pushBackAt b.cmp_fn_ o.price ⟨b.fresh_, o⟩ b.priceLevels_)
        ↔ e ∈ (o.id, b.fresh_) :: indexOf b.priceLevels_ := by
      unfold indexOf
      exact (hperm.map (fun n => (n.order.id, n.addr))).mem_iff
    rw [h2]
    simp only [List.mem_append, List.mem_cons, List.mem_singleton, hiff e]
    tauto
  · show b.size_ + 1 = (allNodes (pushBackAt _ _ _ _)).length
    rw [hperm.length_eq, List.length_cons, hsz]
  · intro m hm
    change m ∈ allNodes (pushBackAt _ _ _ _) at hm
    rcases List.mem_cons.1 (hperm.mem_iff.1 hm) with h | h
    · subst h
      show b.fresh_ < b.fresh_ + 1
      omega
    · have := hfr m h
      show m.addr < b.fresh_ + 1
      omega

theorem pushBackAt_levels (c : Compare) (p : Nat) (n : Node)
    (levels : List (Nat × List Node))
    (hs : (levels.map Prod.fst).Pairwise (fun a b => c.fn a b = true)) :
    (∀ q, (p, q) ∈ levels → (p, q ++ [n]) ∈ pushBackAt c p n levels)
    ∧ (p ∉ levels.map Prod.fst → (p, [n]) ∈ pushBackAt c p n levels)
    ∧ (∀ k q, k ≠ p → ((k, q) ∈ pushBackAt c p n levels ↔ (k, q) ∈ levels)) := by
  by_cases hp : p ∈ levels.map Prod.fst
  · obtain ⟨l, hl, hl1⟩ := List.mem_map.1 hp
    obtain ⟨pre, post, hsplit⟩ := List.append_of_mem hl
    obtain ⟨k0, q0⟩ := l
    simp only at hl1
    subst hl1
    have hnew := pushBackAt_present c k0 n q0 pre post (hsplit ▸ hs)
    rw [← hsplit] at hnew
    refine ⟨?_, fun h => absurd hp h, ?_⟩
    · intro q hq
      have : q = q0 := level_unique (keys_nodup hs) hq hl
      rw [hnew, this]
      simp
    · intro k q hk
      rw [hnew, hsplit]
      simp only [List.mem_append, List.mem_cons, Prod.mk.injEq]
      constructor
      · rintro (h | ⟨h, _⟩ | h)
        · exact Or.inl h
        · exact absurd h hk
        · exact Or.inr (Or.inr h)
      · rintro (h | ⟨h, _⟩ | h)
        · exact Or.inl h
        · exact absurd h hk
        · exact Or.inr (Or.inr h)
  · obtain ⟨pre, post, h1, h2, _, _⟩ := pushBackAt_absent c p n levels hs hp
    refine ⟨?_, ?_, ?_⟩
    · intro q hq
      exact absurd (List.mem_map.2 ⟨(p, q), hq, rfl⟩) hp
    · intro _
      rw [h2]
      simp
    · intro k q hk
      rw [h2, h1]
      simp only [List.mem_append, List.mem_cons, Prod.mk.injEq]
      constructor
      · rintro (h | ⟨h, _⟩ | h)
        · exact Or.inl h
        · exact absurd h hk
        · exact Or.inr h
      · rintro (h | h)
        · exact Or.inl h
        · exact Or.inr (Or.inr h)

/-- C9. On a consistent book, `insert(order)` of an order whose id is not resting appends the
order at the back of the queue of the level keyed by its price, creating the level when it
did not exist; afterwards `contains` is true, `find` designates the inserted order, `size()`
is one more, every other level is untouched, and every previous queue is an initial segment
of the queue now filed under the same price. -/
theorem insert_appends (b : RBTreeContainer) (o : Order) (hwf : WF b)
    (hc : b.contains o.id = false) :
    (b.insert o).contains o.id = true
    ∧ (b.insert o).find o.id = some o
    ∧ (b.insert o).size = b.size + 1
    ∧ (∀ q, (o.price, q) ∈ b.priceLevels_ →
        (o.price, q ++ [⟨b.fresh_, o⟩]) ∈ (b.insert o).priceLevels_)
    ∧ (o.price ∉ b.priceLevels_.map Prod.fst →
        (o.price, [⟨b.fresh_, o⟩]) ∈ (b.insert o).priceLevels_)
    ∧ (∀ p q, p ≠ o.price → ((p, q) ∈ (b.insert o).priceLevels_ ↔ (p, q) ∈ b.priceLevels_))
    ∧ (∀ p q, (p, q) ∈ b.priceLevels_ →
        ∃ t, (p, q ++ t) ∈ (b.insert o).priceLevels_) := by
  have hwf1 := insert_WF hwf hc
  have hmem : (⟨b.fresh_, o⟩ : Node) ∈ allNodes (b.insert o).priceLevels_ :=
    (allNodes_pushBackAt _ _ _ _).mem_iff.2 (List.mem_cons_self _ _)
  obtain ⟨h1, h2, h3⟩ :=
    pushBackAt_levels b.cmp_fn_ o.price ⟨b.fresh_, o⟩ b.priceLevels_ hwf.1
  refine ⟨?_, hwf1.find hmem, rfl, h1, h2, h3, ?_⟩
  · exact (hwf1.contains_iff o.id).2 ⟨_, hmem, rfl⟩
  · intro p q hpq
    by_cases hp : p = o.price
    · subst hp
      exact ⟨_, h1 q hpq⟩
    · exact ⟨[], by simpa using (h3 p q hp).2 hpq⟩

/-- Inserting a fourth order at the existing price 100 of scenario 1 as an instance of C9. -/
theorem insert_appends_witness :
    (askBook.insert ⟨4, 100, 7, false, 0, 0⟩).contains 4 = true
    ∧ (askBook.insert ⟨4, 100, 7, false, 0, 0⟩).find 4 = some ⟨4, 100, 7, false, 0, 0⟩
    ∧ (askBook.insert ⟨4, 100, 7, false, 0, 0⟩).size = askBook.size + 1 :=
  have h := insert_appends askBook ⟨4, 100, 7, false, 0, 0⟩ (by decide) (by decide)
  ⟨h.1, h.2.1, h.2.2.1⟩

/-! ## C10: `modify` to another price -/

theorem WF.find_some {b : RBTreeContainer} (hwf : WF b) {id : Nat} {cur : Order}
    (hf : b.find id = some cur) :
    ∃ n ∈ allNodes b.priceLevels_, n.order = cur ∧ n.order.id = id := by
  unfold RBTreeContainer.find at hf
  cases hm : hermes.mapFind b.orderMap_ id with
  | none => rw [hm] at hf; exact Option.noConfusion hf
  | some h =>
    rw [hm] at hf
    have hmem := (hwf.2.2.2.2.2.2.1 _).1 (mapFind_some_mem hm)
    obtain ⟨n, hn, heq⟩ := List.mem_map.1 hmem
    have hid : n.order.id = id := congrArg Prod.fst heq
    have hadr : n.addr = h := congrArg Prod.snd heq
    have hd := deref_of_mem hwf.2.2.2.1 hn
    change deref b.priceLevels_ h = some cur at hf
    rw [hadr, hf] at hd
    exact ⟨n, hn, (Option.some.inj hd).symm, hid⟩

theorem modify_WF {b b1 : RBTreeContainer} {o : Order} (hwf : WF b)
    (hc : b.contains o.id = true) (hm : b.modify o = some b1) :
    WF b1 ∧ b1.cmp_fn_ = b.cmp_fn_ := by
  obtain ⟨n, hn, hid⟩ := (hwf.contains_iff o.id).1 hc
  obtain ⟨b2, hrem, hlev, _, _, hcmp, _, hwf2⟩ := remove_of_WF hwf hn
  rw [hid] at hrem hlev
  have hmf := hwf.mapFind hn
  rw [hid] at hmf
  have hd := deref_of_mem hwf.2.2.2.1 hn
  unfold RBTreeContainer.modify at hm
  by_cases hq : o.quantity = 0
  · simp only [hq, if_true, hrem, Option.some.injEq] at hm
    subst hm
    exact ⟨hwf2, hcmp⟩
  · simp only [hq, if_false, hmf, hd] at hm
    by_cases hp : n.order.price = o.price
    · simp only [hp, if_true, Option.some.injEq] at hm
      subst hm
      exact ⟨WF_setQuantityAt hwf _ _, rfl⟩
    · simp only [hp, if_false, hrem, Option.some.injEq] at hm
      subst hm
      have hgone : ∀ m ∈ allNodes b2.priceLevels_, m.order.id ≠ o.id := by
        intro m hm
        rw [hlev, allNodes_dropId] at hm
        simpa using (List.mem_filter.1 hm).2
      have hc2 : b2.contains o.id = false := by
        cases hcon : b2.contains o.id
        · rfl
        · obtain ⟨m, hm, hmid⟩ := (hwf2.contains_iff _).1 hcon
          exact absurd hmid (hgone m hm)
      exact ⟨insert_WF hwf2 hc2, hcmp⟩

theorem WF_empty (c : Compare) : WF (RBTreeContainer.empty c) := by
  simp [WF, RBTreeContainer.empty, indexOf]

theorem Reachable.wf {c : Compare} {b : RBTreeContainer} (h : Reachable c b) :
    WF b ∧ b.cmp_fn_ = c := by
  induction h with
  | empty => exact ⟨WF_empty c, rfl⟩
  | insert _ hc ih => exact ⟨insert_WF ih.1 hc, ih.2⟩
  | @remove b b1 id _ hc hr ih =>
    obtain ⟨n, hn, hid⟩ := (ih.1.contains_iff id).1 hc
    obtain ⟨b2, hrem, _, _, _, hcmp, _, hwf2⟩ := remove_of_WF ih.1 hn
    rw [hid, hr, Option.some.injEq] at hrem
    subst hrem
    exact ⟨hwf2, hcmp.trans ih.2⟩
  | modify _ hc hm ih =>
    obtain ⟨h1, h2⟩ := modify_WF ih.1 hc hm
    exact ⟨h1, h2.trans ih.2⟩
  | @cross b o s _ hs ih =>
    obtain ⟨b1, hrun, _, hwf1, hcmp, _⟩ := cross_spec ih.1 o
    rw [hs, Option.some.injEq] at hrun
    subst hrun
    exact ⟨hwf1, hcmp.trans ih.2⟩

theorem modify_returns {b : RBTreeContainer} (hwf : WF b) {o : Order}
    (hc : b.contains o.id = true) : ∃ b1, b.modify o = some b1 := by
  obtain ⟨n, hn, hid⟩ := (hwf.contains_iff o.id).1 hc
  obtain ⟨b2, hrem, _⟩ := remove_of_WF hwf hn
  rw [hid] at hrem
  have hmf := hwf.mapFind hn
  rw [hid] at hmf
  have hd := deref_of_mem hwf.2.2.2.1 hn
  unfold RBTreeContainer.modify
  by_cases hq : o.quantity = 0
  · exact ⟨b2, by simp only [hq, if_true, hrem]⟩
  · by_cases hp : n.order.price = o.price
    · refine ⟨{ b with priceLevels_ := setQuantityAt n.addr o.quantity b.priceLevels_ }, ?_⟩
      simp only [hq, if_false, hmf, hd, hp, if_true]
    · refine ⟨b2.insert o, ?_⟩
      simp only [hq, if_false, hmf, hd, hp, hrem]

theorem Reachable.returns {c : Compare} {b : RBTreeContainer} (h : Reachable c b) :
    (∀ id, b.contains id = true → ∃ b1, b.remove id = some b1)
    ∧ (∀ o : Order, b.contains o.id = true → ∃ b1, b.modify o = some b1)
    ∧ (∀ o : Order, ∃ s, b.cross o = some s) := by
  have hwf := h.wf.1
  refine ⟨?_, fun o hc => modify_returns hwf hc, ?_⟩
  · intro id hc
    obtain ⟨n, hn, hid⟩ := (hwf.contains_iff id).1 hc
    obtain ⟨b1, hrem, _⟩ := remove_of_WF hwf hn
    exact ⟨b1, hid ▸ hrem⟩
  · intro o
    obtain ⟨b1, hrun, _⟩ := cross_spec hwf o
    exact ⟨_, hrun⟩


/-! ## C11: `modify` at the resting price -/

theorem setQuantityAt_by_id {b : RBTreeContainer} (hwf : WF b) {n : Node}
    (hn : n ∈ allNodes b.priceLevels_) (x : Nat) :
    setQuantityAt n.addr x b.priceLevels_
      = b.priceLevels_.map (fun l => (l.1, l.2.map (fun m =>
          if m.order.id = n.order.id then ⟨m.addr, m.order.setQuantity x⟩ else m))) := by
  unfold setQuantityAt
  refine List.map_congr_left ?_
  intro l hl
  have : l.2.map (fun m => if m.addr = n.addr then
        ({ m with order := m.order.setQuantity x } : Node) else m)
      = l.2.map (fun m => if m.order.id = n.order.id then
        (⟨m.addr, m.order.setQuantity x⟩ : Node) else m) := by
    refine List.map_congr_left ?_
    intro m hm
    have hmall : m ∈ allNodes b.priceLevels_ := mem_allNodes.2 ⟨l, hl, hm⟩
    by_cases ha : m.addr = n.addr
    · have hmn : m = n := List.inj_on_of_nodup_map hwf.2.2.2.1 hmall hn ha
      simp [hmn]
    · have hi : ¬ m.order.id = n.order.id := by
        intro hid
        exact ha (congrArg Node.addr (List.inj_on_of_nodup_map hwf.2.2.2.2.1 hmall hn hid))
      simp [ha, hi]
  rw [this]

/-- C11. On a consistent book, `modify(newOrder)` for a resting id, a positive quantity and
the resting price returns and changes only the quantity of the resting order, to
`newOrder.quantity()`: the node keeps its address, its id and its place in the queue, and
`size()`, the level keys, the identifier index and every other node are unchanged. -/
theorem modify_same_price (b : RBTreeContainer) (newOrder cur : Order) (hwf : WF b)
    (hfind : b.find newOrder.id = some cur) (hq : 0 < newOrder.quantity)
    (hp : cur.price = newOrder.price) :
    ∃ b1, b.modify newOrder = some b1
      ∧ b1.priceLevels_ = b.priceLevels_.map (fun l => (l.1, l.2.map (fun m =>
          if m.order.id = newOrder.id then ⟨m.addr, m.order.setQuantity newOrder.quantity⟩
          else m)))
      ∧ b1.priceLevels_.map Prod.fst = b.priceLevels_.map Prod.fst
      ∧ b1.orderMap_ = b.orderMap_
      ∧ b1.size = b.size
      ∧ b1.find newOrder.id = some (cur.setQuantity newOrder.quantity) := by
  obtain ⟨n, hn, hcur, hid⟩ := hwf.find_some hfind
  subst hcur
  have hmf := hwf.mapFind hn
  rw [hid] at hmf
  have hd := deref_of_mem hwf.2.2.2.1 hn
  have hq0 : ¬ newOrder.quantity = 0 := by omega
  have hmod : b.modify newOrder = some
      { b with priceLevels_ := setQuantityAt n.addr newOrder.quantity b.priceLevels_ } := by
    unfold RBTreeContainer.modify
    simp only [hq0, if_false, hmf, hd, hp, if_true]
  have hwf1 := WF_setQuantityAt hwf n.addr newOrder.quantity
  have hform := setQuantityAt_by_id hwf hn newOrder.quantity
  rw [hid] at hform
  refine ⟨_, hmod, hform, ?_, rfl, rfl, ?_⟩
  · show (setQuantityAt n.addr newOrder.quantity b.priceLevels_).map Prod.fst = _
    simp [setQuantityAt, List.map_map, Function.comp_def]
  · have hmem : (⟨n.addr, n.order.setQuantity newOrder.quantity⟩ : Node)
        ∈ allNodes (setQuantityAt n.addr newOrder.quantity b.priceLevels_) := by
      rw [allNodes_setQuantityAt]
      exact List.mem_map.2 ⟨n, hn, by simp⟩
    have := hwf1.find hmem
    simp only [Order.setQuantity] at this ⊢
    rw [← hid]
    exact this

/-- Scenario 3 of spec section 8 on the book of scenario 1: the 5-unit order at 100 is
modified to quantity 3 at the same price, as an instance of C11. -/
theorem modify_same_price_witness :
    ∃ b1, askBook.modify ⟨2, 100, 3, false, 0, 0⟩ = some b1
      ∧ b1.priceLevels_ = askBook.priceLevels_.map (fun l => (l.1, l.2.map (fun m =>
          if m.order.id = 2 then ⟨m.addr, m.order.setQuantity 3⟩ else m)))
      ∧ b1.priceLevels_.map Prod.fst = askBook.priceLevels_.map Prod.fst
      ∧ b1.orderMap_ = askBook.orderMap_
      ∧ b1.size = askBook.size
      ∧ b1.find 2 = some (sell5.setQuantity 3) :=
  modify_same_price askBook ⟨2, 100, 3, false, 0, 0⟩ sell5 WF_askBook (by decide) (by decide)
    (by decide)

/-! ## C12: `modify` with quantity zero -/

/-- C12. For every book and every order `newOrder` with quantity `0`, whatever its price,
`modify(newOrder)` is `remove(newOrder.id())`: the two calls have the same outcome from the
same starting book (on a consistent book with the id resting, both return the same book). -/
theorem modify_zero_is_remove (b : RBTreeContainer) (newOrder : Order)
    (hq : newOrder.quantity = 0) :
    b.modify newOrder = b.remove newOrder.id
    ∧ (WF b → b.contains newOrder.id = true →
        ∃ b1, b.modify newOrder = some b1 ∧ b.remove newOrder.id = some b1) := by
  have heq : b.modify newOrder = b.remove newOrder.id := by
    unfold RBTreeContainer.modify
    simp only [hq, if_true]
  refine ⟨heq, ?_⟩
  intro hwf hc
  obtain ⟨n, hn, hid⟩ := (hwf.contains_iff newOrder.id).1 hc
  obtain ⟨b1, hrem, _⟩ := remove_of_WF hwf hn
  rw [hid] at hrem
  exact ⟨b1, heq.trans hrem, hrem⟩

/-- A zero-quantity modify of the order at 101 of scenario 1, at another price, as an
instance of C12. -/
theorem modify_zero_is_remove_witness :
    askBook.modify ⟨3, 555, 0, false, 0, 0⟩ = askBook.remove 3
    ∧ ∃ b1, askBook.modify ⟨3, 555, 0, false, 0, 0⟩ = some b1
        ∧ askBook.remove 3 = some b1 :=
  ⟨(modify_zero_is_remove askBook ⟨3, 555, 0, false, 0, 0⟩ rfl).1,
    (modify_zero_is_remove askBook ⟨3, 555, 0, false, 0, 0⟩ rfl).2 WF_askBook (by decide)⟩

/-! ## C13: `insert` then `remove` -/

/-- C14, as stated, fails: on the book of scenario 1 the id `42` is not resting and
`remove(42)` has no defined outcome (no `NotFound`, no book after the call). -/
theorem remove_absent_counterexample :
    askBook.contains 42 = false ∧ ¬ ∃ b1, askBook.remove 42 = some b1 := by
  refine ⟨by decide, ?_⟩
  rintro ⟨b1, h⟩
  have hnone : askBook.remove 42 = none := by decide
  rw [hnone] at h
  exact Option.noConfusion h

/-- C14, amended. For every book and every id that is not resting in it, the lookup
`orderMap_.find(id)` of `remove(id)` yields `end()` and the call, which dereferences it, has
no defined outcome: the container reports no `NotFound`, so `contains(id)` must be tested
before the call. -/
theorem remove_absent_undefined (b : RBTreeContainer) (id : Nat)
    (h : b.contains id = false) :
    mapFind b.orderMap_ id = none ∧ b.remove id = none := by
  have hm : mapFind b.orderMap_ id = none := by
    unfold RBTreeContainer.contains at h
    cases hf : mapFind b.orderMap_ id with
    | none => rfl
    | some v => rw [hf] at h; exact Bool.noConfusion h
  refine ⟨hm, ?_⟩
  unfold RBTreeContainer.remove
  rw [hm]

/-- Scenario 5 of spec section 8 on the book of scenario 1, as an instance of the amended
C14. -/
theorem remove_absent_undefined_witness :
    askBook.contains 42 = false
    ∧ mapFind askBook.orderMap_ 42 = none ∧ askBook.remove 42 = none :=
  ⟨by decide, remove_absent_undefined askBook 42 (by decide)⟩

/-! ## C15: `bestPrice` -/

/-- C15. On a nonempty consistent book `bestPrice()` is the price of a resting order, and no
resting order has a price ordered strictly before it by the comparator: it is the least
resting price for `std::less` and the greatest for `std::greater`. -/
theorem bestPrice_is_best (b : RBTreeContainer) (hwf : WF b) (hne : 0 < b.size) :
    ∃ p, b.bestPrice = some p
      ∧ (∃ n ∈ allNodes b.priceLevels_, n.order.price = p)
      ∧ (∀ n ∈ allNodes b.priceLevels_, b.cmp_fn_.fn n.order.price p = false)
      ∧ (b.cmp_fn_ = Compare.less → ∀ n ∈ allNodes b.priceLevels_, p ≤ n.order.price)
      ∧ (b.cmp_fn_ = Compare.greater → ∀ n ∈ allNodes b.priceLevels_, n.order.price ≤ p) := by
  obtain ⟨hk, hnempty, hpr, _, _, _, _, hsz, _⟩ := hwf
  have hsize : 0 < b.size_ := hne
  cases hl : b.priceLevels_ with
  | nil =>
    rw [hl] at hsz
    simp at hsz
    omega
  | cons l rest =>
    rw [hl] at hk hnempty hpr
    simp only [List.map_cons, List.pairwise_cons] at hk
    have hq : l.2 ≠ [] := hnempty l (List.mem_cons_self _ _)
    obtain ⟨n0, hn0⟩ := List.exists_mem_of_ne_nil _ hq
    have hweak : ∀ n ∈ allNodes (l :: rest),
        n.order.price = l.1 ∨ b.cmp_fn_.fn l.1 n.order.price = true := by
      intro n hn
      obtain ⟨l2, hl2, hn2⟩ := mem_allNodes.1 hn
      rw [hpr l2 hl2 n hn2]
      rcases List.mem_cons.1 hl2 with h | h
      · left; rw [h]
      · right; exact hk.1 l2.1 (List.mem_map.2 ⟨l2, h, rfl⟩)
    refine ⟨l.1, ?_, ⟨n0, by simp [hn0], hpr l (List.mem_cons_self _ _) n0 hn0⟩, ?_, ?_, ?_⟩
    · simp [RBTreeContainer.bestPrice, hl]
    · intro n hn
      rcases hweak n hn with h | h
      · rw [h]; exact Compare.fn_irrefl _ _
      · exact Compare.fn_asymm _ h
    · intro hc n hn
      rcases hweak n hn with h | h
      · omega
      · rw [hc] at h
        simp [Compare.fn] at h
        omega
    · intro hc n hn
      rcases hweak n hn with h | h
      · omega
      · rw [hc] at h
        simp [Compare.fn] at h
        omega

/-- Scenario 1 of spec section 8 as an instance of C15: the best sell price is 100. -/
theorem bestPrice_is_best_witness :
    ∃ p, askBook.bestPrice = some p
      ∧ (∃ n ∈ allNodes askBook.priceLevels_, n.order.price = p)
      ∧ (∀ n ∈ allNodes askBook.priceLevels_, askBook.cmp_fn_.fn n.order.price p = false)
      ∧ (askBook.cmp_fn_ = Compare.less → ∀ n ∈ allNodes askBook.priceLevels_,
          p ≤ n.order.price)
      ∧ (askBook.cmp_fn_ = Compare.greater → ∀ n ∈ allNodes askBook.priceLevels_,
          n.order.price ≤ p) :=
  bestPrice_is_best askBook WF_askBook (by decide)


/-! ## C17: quantities stay positive -/

theorem WF.shape {b : RBTreeContainer} (hwf : WF b) : Shape b :=
  ⟨hwf.1, hwf.2.1, hwf.2.2.1, hwf.2.2.2.1, hwf.2.2.2.2.2.2.2.2⟩

end hermes
